import Mathlib

/-!
Verification development for the `dqcmap` controller-aware qubit-placement
system.  The Python sources are shallowly embedded: Python dicts become
insertion-ordered association lists, Python floats become rationals, and
fallible code (assertions, KeyError/IndexError/ValueError) returns
`Option`/`Except`.
-/

namespace DqcMap

/-- Python-dict lookup over an insertion-ordered association list. -/
def dlookup [DecidableEq κ] (k : κ) : List (κ × α) → Option α
  | [] => none
  | (k', v) :: rest => if k = k' then some v else dlookup k rest

/-- Python-dict assignment: overwrite in place, else append at the end
(Python dicts keep the original insertion position on overwrite). -/
def dinsert [DecidableEq κ] (k : κ) (v : α) : List (κ × α) → List (κ × α)
  | [] => [(k, v)]
  | (k', v') :: rest =>
    if k = k' then (k, v) :: rest else (k', v') :: dinsert k v rest

/-- The keys of an association list, in insertion order. -/
def dkeys (m : List (κ × α)) : List κ := m.map Prod.fst

/-- Python-list indexing (`xs[i]`); out of range raises, hence `none`. -/
def pyGet : List α → ℕ → Option α
  | [], _ => none
  | a :: _, 0 => some a
  | _ :: l, n + 1 => pyGet l n

/-- Deduplicate keeping the first occurrence of each element
(the order in which Python dicts acquire fresh keys). -/
def firstDedup : List ℕ → List ℕ
  | [] => []
  | a :: l => a :: firstDedup (l.filter (fun x => x ≠ a))
termination_by l => l.length
decreasing_by simp only [List.length_cons]; exact Nat.lt_succ_of_le (List.length_filter_le _ _)

/-! ### ControllerConfig construction (controller.py 21–54) -/

/-- The data kept by a successfully constructed `ControllerConfig`
(only the fields the claims are about). -/
structure ControllerParams where
  num_qubits : ℕ
  num_controllers : ℕ
deriving DecidableEq, Repr

/-- `ControllerConfig.__init__`: the constructor asserts
`num_qubits > 0 and num_controllers > 0 and num_qubits >= 2 * num_controllers`
(controller.py lines 47–49); a failed assertion raises, hence `none`. -/
def mkControllerConfig (num_qubits num_controllers : ℕ) : Option ControllerParams :=
  if 0 < num_qubits ∧ 0 < num_controllers ∧ num_qubits ≥ 2 * num_controllers then
    some ⟨num_qubits, num_controllers⟩
  else none

/-! ### HeuristicMapper scoring (heuristic_graphpartition_mapper.py 376–386) -/

/-- `HeuristicMapper.get_controller`: scan `ctrl_to_pq` in insertion order and
return the first controller whose region contains the physical qubit; a qubit
in no region raises `ValueError`, hence `none`. -/
def get_controller (ctrl_to_pq : List (ℕ × List ℕ)) (physical_qubit : ℕ) : Option ℕ :=
  match ctrl_to_pq with
  | [] => none
  | (ctrl, pqs) :: rest =>
    if physical_qubit ∈ pqs then some ctrl else get_controller rest physical_qubit

/-- The controller hosting the physical qubit that `mapping` assigns to
logical qubit `q` (`get_controller(mapping[q])`). -/
def mappedController (ctrl_to_pq : List (ℕ × List ℕ)) (mapping : List ℕ) (q : ℕ) :
    Option ℕ :=
  (pyGet mapping q).bind (get_controller ctrl_to_pq)

/-- One summand of `evaluate_mapping`: whether the two endpoints of a
conditional pair land on different controllers (`none` when the lookup of
either endpoint raises). -/
def pairCross (ctrl_to_pq : List (ℕ × List ℕ)) (mapping : List ℕ) (p : ℕ × ℕ) :
    Option Bool :=
  match mappedController ctrl_to_pq mapping p.1, mappedController ctrl_to_pq mapping p.2 with
  | some c1, some c2 => some (decide (c1 ≠ c2))
  | _, _ => none

/-- `HeuristicMapper.evaluate_mapping`: sum over `cif_pairs` of the indicator
`get_controller(mapping[q1]) != get_controller(mapping[q2])`. -/
def evaluate_mapping (ctrl_to_pq : List (ℕ × List ℕ)) (cif_pairs : List (ℕ × ℕ))
    (mapping : List ℕ) : Option ℕ :=
  match cif_pairs with
  | [] => some 0
  | p :: rest =>
    match pairCross ctrl_to_pq mapping p, evaluate_mapping ctrl_to_pq rest mapping with
    | some b, some n => some (b.toNat + n)
    | _, _ => none

/-! ### Circuit instructions -/

/-- A classical bit: qiskit's `Clbit` carries its owning register. -/
structure Clbit where
  reg : ℕ
  idx : ℕ
deriving DecidableEq, Repr

/-- A classical condition: either a single `Clbit` or a whole register. -/
inductive Cond where
  | bit (c : Clbit)
  | creg (r : ℕ)
deriving DecidableEq, Repr

/-- One circuit instruction: operation name, qubit arguments (as indices),
classical-bit arguments, and the optional classical condition. -/
structure Instr where
  name : String
  qargs : List ℕ
  cargs : List Clbit
  condition : Option Cond
deriving DecidableEq, Repr

/-- `CircProperty.two_qubit_gates` (circuit_prop.py 36–53): collect
`[qargs[0], qargs[1]]` for every instruction with exactly two qubit
arguments; the loop never looks at the condition. -/
def two_qubit_gates (data : List Instr) : List (ℕ × ℕ) :=
  match data with
  | [] => []
  | ins :: rest =>
    match ins.qargs with
    | [q0, q1] => (q0, q1) :: two_qubit_gates rest
    | _ => two_qubit_gates rest

/-! ### Latency evaluation, `Eval.calc_ctrl_latency` (evaluator.py 186–218) -/

/-- The four accumulators of `Eval.calc_ctrl_latency`. -/
structure CtrlLatencyResult where
  ctrl_latency : ℚ
  inner_latency : ℚ
  inter_latency : ℚ
  num_inter_cif : ℕ
deriving DecidableEq, Repr

/-- `Eval.calc_ctrl_latency`: for each conditional pair `[targ, ctrl]`, add
`dt_inner` to the total and the inner subtotal when both endpoints share a
controller in `pq_to_ctrl`, else add `dt_inter` to the total and the inter
subtotal and bump the inter counter.  The Python code asserts that both
endpoints are keys of `pq_to_ctrl`; a failure is `none`. -/
def calc_ctrl_latency (pq_to_ctrl : List (ℕ × ℕ)) (dt_inner dt_inter : ℚ)
    (pairs : List (ℕ × ℕ)) : Option CtrlLatencyResult :=
  match pairs with
  | [] => some ⟨0, 0, 0, 0⟩
  | (targ_pq, ctrl_pq) :: rest =>
    match dlookup targ_pq pq_to_ctrl, dlookup ctrl_pq pq_to_ctrl with
    | some c1, some c2 =>
      match calc_ctrl_latency pq_to_ctrl dt_inner dt_inter rest with
      | some r =>
        if c1 = c2 then
          some ⟨dt_inner + r.ctrl_latency, dt_inner + r.inner_latency,
                r.inter_latency, r.num_inter_cif⟩
        else
          some ⟨dt_inter + r.ctrl_latency, r.inner_latency,
                dt_inter + r.inter_latency, r.num_inter_cif + 1⟩
      | none => none
    | _, _ => none

/-- Whether both endpoints of a conditional pair resolve to the same
controller under `pq_to_ctrl` (meaningful when both lookups succeed). -/
def sameCtrl (pq_to_ctrl : List (ℕ × ℕ)) (p : ℕ × ℕ) : Bool :=
  decide (dlookup p.1 pq_to_ctrl = dlookup p.2 pq_to_ctrl)

/-! ### numpy `array_split` and the trivial partition
(controller.py `_gen_trivial_mapping`, lines 81–94) -/

/-- The chunk sizes of `np.array_split(arr, k)` for an array of length `n`:
the first `n % k` chunks have size `n / k + 1`, the rest size `n / k`. -/
def splitSizes (n k : ℕ) : List ℕ :=
  (List.range k).map (fun i => if i < n % k then n / k + 1 else n / k)

/-- Cut `l` into consecutive chunks of the given sizes. -/
def takeChunks : List α → List ℕ → List (List α)
  | _, [] => []
  | l, s :: ss => l.take s :: takeChunks (l.drop s) ss

/-- `np.array_split(l, k)` (k > 0): near-equal consecutive chunks. -/
def array_split (l : List α) (k : ℕ) : List (List α) :=
  takeChunks l (splitSizes l.length k)

/-- The common region-registration loop of both partition strategies:
`for idx, sub_lst in enumerate(split_lst): for pq in sub_lst: pq2c[pq] = idx;
c2pq[idx] = sub_lst`, with controller ids starting at `start`. -/
def buildRegionMaps (start : ℕ) (regions : List (List ℕ))
    (m : List (ℕ × ℕ) × List (ℕ × List ℕ)) : List (ℕ × ℕ) × List (ℕ × List ℕ) :=
  match regions with
  | [] => m
  | sub :: rest =>
    buildRegionMaps (start + 1) rest
      (sub.foldl (fun pq2c pq => dinsert pq start pq2c) m.1, dinsert start sub m.2)

/-- `ControllerConfig._gen_trivial_mapping`: split `range(num_qubits)` into
`num_controllers` near-equal chunks and register each chunk as a region. -/
def gen_trivial_mapping (num_qubits num_controllers : ℕ) :
    List (ℕ × ℕ) × List (ℕ × List ℕ) :=
  buildRegionMaps 0 (array_split (List.range num_qubits) num_controllers) ([], [])

/-! ## Claim C6: ControllerConfig construction boundary -/

/-- C6 counterexample: the claim says construction fails whenever
`num_qubits ≤ 2 × num_controllers`, but at `num_qubits = 4`,
`num_controllers = 2` we have `4 ≤ 2 × 2` and construction succeeds
(the assertion in controller.py line 48 uses `>=`, not `>`). -/
theorem mkControllerConfig_boundary_cex :
    (4 : ℕ) ≤ 2 * 2 ∧ (mkControllerConfig 4 2).isSome = true := by decide

/-- C6 (amended): `ControllerConfig` construction succeeds exactly when both
counts are positive and `num_qubits ≥ 2 × num_controllers`; so with positive
counts it fails exactly when `num_qubits < 2 × num_controllers`. -/
theorem mkControllerConfig_isSome_iff (num_qubits num_controllers : ℕ) :
    (mkControllerConfig num_qubits num_controllers).isSome = true ↔
      0 < num_qubits ∧ 0 < num_controllers ∧ 2 * num_controllers ≤ num_qubits := by
  unfold mkControllerConfig
  split <;> simp_all [ge_iff_le]

/-! ## Claim C1: the heuristic mapper's score counts cross-controller pairs -/

/-- C1: whenever every conditional pair's endpoints resolve to physical
qubits owned by some controller, `evaluate_mapping` returns exactly the
number of pairs (with multiplicity) whose endpoints are owned by different
controllers. -/
theorem evaluate_mapping_counts_cross (ctrl_to_pq : List (ℕ × List ℕ))
    (mapping : List ℕ) (pairs : List (ℕ × ℕ))
    (h : ∀ p ∈ pairs, (pairCross ctrl_to_pq mapping p).isSome = true) :
    evaluate_mapping ctrl_to_pq pairs mapping =
      some (pairs.countP (fun p => pairCross ctrl_to_pq mapping p == some true)) := by
  induction pairs with
  | nil => rfl
  | cons p rest ih =>
    have hp := h p (List.mem_cons_self ..)
    have hrest : ∀ q ∈ rest, (pairCross ctrl_to_pq mapping q).isSome = true :=
      fun q hq => h q (List.mem_cons_of_mem _ hq)
    obtain ⟨b, hb⟩ := Option.isSome_iff_exists.mp hp
    rw [evaluate_mapping, hb, ih hrest, List.countP_cons]
    cases b <;> simp [hb, Nat.add_comm]

/-- Witness for C1 on a concrete two-controller configuration: of the three
conditional pairs exactly one crosses a controller boundary, and the score
is 1. -/
theorem evaluate_mapping_counts_cross_witness :
    (∀ p ∈ [((0:ℕ),(1:ℕ)), (1,2), (0,0)],
        (pairCross [(0,[0,1]),(1,[2,3])] [0,2,3] p).isSome = true) ∧
    evaluate_mapping [(0,[0,1]),(1,[2,3])] [(0,1),(1,2),(0,0)] [0,2,3] = some 1 :=
  ⟨by decide, (evaluate_mapping_counts_cross _ _ _ (by decide)).trans (by decide)⟩

/-! ## Claim C8: the score only depends on controller membership -/

/-- C8: two mappings that give every logical qubit the same controller
(possibly via different physical qubits) get identical scores from
`evaluate_mapping`, for every pair list. -/
theorem evaluate_mapping_ctrl_invariant (ctrl_to_pq : List (ℕ × List ℕ))
    (pairs : List (ℕ × ℕ)) (m1 m2 : List ℕ)
    (h : ∀ q, mappedController ctrl_to_pq m1 q = mappedController ctrl_to_pq m2 q) :
    evaluate_mapping ctrl_to_pq pairs m1 = evaluate_mapping ctrl_to_pq pairs m2 := by
  induction pairs with
  | nil => rfl
  | cons p rest ih =>
    have hc : pairCross ctrl_to_pq m1 p = pairCross ctrl_to_pq m2 p := by
      unfold pairCross; rw [h p.1, h p.2]
    rw [evaluate_mapping, evaluate_mapping, hc, ih]

/-- Witness for C8: `[0,2]` and `[1,3]` place both logical qubits on
different physical qubits but the same controllers, and both score 1. -/
theorem evaluate_mapping_ctrl_invariant_witness :
    evaluate_mapping [(0,[0,1]),(1,[2,3])] [(0,1)] [0,2] =
      evaluate_mapping [(0,[0,1]),(1,[2,3])] [(0,1)] [1,3] ∧
    evaluate_mapping [(0,[0,1]),(1,[2,3])] [(0,1)] [0,2] = some 1 :=
  ⟨evaluate_mapping_ctrl_invariant _ _ _ _
      (fun q => by match q with | 0 => rfl | 1 => rfl | n+2 => rfl),
    by decide⟩

/-! ## Claim C10: `two_qubit_gates` keeps conditioned two-qubit gates -/

/-- C10: `two_qubit_gates` returns, in circuit order, the qubit pair of
every instruction with exactly two qubit arguments — the filter never looks
at the condition, so conditioned two-qubit gates are included (despite the
accessor's docstring) — and instructions with one or with three or more
qubit arguments are excluded. -/
theorem two_qubit_gates_spec (data : List Instr) :
    two_qubit_gates data =
      (data.filter (fun ins => ins.qargs.length == 2)).map
        (fun ins => (ins.qargs.getD 0 0, ins.qargs.getD 1 0)) ∧
    ∀ ins ∈ data, ins.condition ≠ none → ins.qargs.length = 2 →
      (ins.qargs.getD 0 0, ins.qargs.getD 1 0) ∈ two_qubit_gates data := by
  have hmain : ∀ d : List Instr, two_qubit_gates d =
      (d.filter (fun ins => ins.qargs.length == 2)).map
        (fun ins => (ins.qargs.getD 0 0, ins.qargs.getD 1 0)) := by
    intro d
    induction d with
    | nil => rfl
    | cons ins rest ih =>
      obtain ⟨nm, qargs, cargs, cond⟩ := ins
      match qargs with
      | [] => simpa [two_qubit_gates, List.filter_cons] using ih
      | [q0] => simpa [two_qubit_gates, List.filter_cons] using ih
      | [q0, q1] => simp [two_qubit_gates, List.filter_cons, ih, List.getD]
      | q0 :: q1 :: q2 :: t => simpa [two_qubit_gates, List.filter_cons] using ih
  refine ⟨hmain data, fun ins hins hcond hlen => ?_⟩
  rw [hmain data]
  exact List.mem_map.mpr ⟨ins, List.mem_filter.mpr ⟨hins, by simp [hlen]⟩, rfl⟩

/-- Witness for C10: a conditioned `cx` is reported, a 1-qubit and a
3-qubit instruction are not. -/
theorem two_qubit_gates_spec_witness :
    two_qubit_gates
      [⟨"cx", [0,1], [], some (Cond.bit ⟨0,0⟩)⟩,
       ⟨"h", [2], [], none⟩,
       ⟨"ccx", [0,1,2], [], none⟩] = [(0,1)] ∧
    ((0:ℕ),(1:ℕ)) ∈ two_qubit_gates
      [⟨"cx", [0,1], [], some (Cond.bit ⟨0,0⟩)⟩,
       ⟨"h", [2], [], none⟩,
       ⟨"ccx", [0,1,2], [], none⟩] :=
  ⟨by decide,
    (two_qubit_gates_spec _).2 ⟨"cx", [0,1], [], some (Cond.bit ⟨0,0⟩)⟩
      (by decide) (by decide) (by decide)⟩

/-! ## Claim C4: `Eval.calc_ctrl_latency` -/

/-- C4: whenever both endpoints of every pair are keys of the partition map,
`calc_ctrl_latency` returns the sum over all conditional pairs of `dt_inner`
(same controller) or `dt_inter` (different controllers), together with the
separate inner/inter subtotals and the count of inter-controller pairs. -/
theorem calc_ctrl_latency_spec (pq_to_ctrl : List (ℕ × ℕ)) (dt_inner dt_inter : ℚ)
    (pairs : List (ℕ × ℕ))
    (h : ∀ p ∈ pairs, (dlookup p.1 pq_to_ctrl).isSome = true ∧
          (dlookup p.2 pq_to_ctrl).isSome = true) :
    calc_ctrl_latency pq_to_ctrl dt_inner dt_inter pairs =
      some ⟨(pairs.map (fun p => if sameCtrl pq_to_ctrl p then dt_inner else dt_inter)).sum,
            (pairs.countP (fun p => sameCtrl pq_to_ctrl p) : ℚ) * dt_inner,
            (pairs.countP (fun p => ! sameCtrl pq_to_ctrl p) : ℚ) * dt_inter,
            pairs.countP (fun p => ! sameCtrl pq_to_ctrl p)⟩ := by
  induction pairs with
  | nil => simp [calc_ctrl_latency]
  | cons p rest ih =>
    obtain ⟨hp1, hp2⟩ := h p (List.mem_cons_self ..)
    have hrest : ∀ q ∈ rest, (dlookup q.1 pq_to_ctrl).isSome = true ∧
        (dlookup q.2 pq_to_ctrl).isSome = true :=
      fun q hq => h q (List.mem_cons_of_mem _ hq)
    obtain ⟨c1, hc1⟩ := Option.isSome_iff_exists.mp hp1
    obtain ⟨c2, hc2⟩ := Option.isSome_iff_exists.mp hp2
    obtain ⟨a, b⟩ := p
    rw [calc_ctrl_latency, hc1, hc2, ih hrest]
    simp only [sameCtrl] at hc1 hc2 ⊢
    by_cases hcc : c1 = c2
    · subst hcc
      have hs : decide (dlookup a pq_to_ctrl = dlookup b pq_to_ctrl) = true := by
        rw [hc1, hc2]; simp
      simp [hs, List.countP_cons, hc1, hc2]
      ring
    · have hs : decide (dlookup a pq_to_ctrl = dlookup b pq_to_ctrl) = false := by
        rw [hc1, hc2]; simpa using hcc
      simp [hs, List.countP_cons, hc1, hc2, hcc]
      ring


set_option maxRecDepth 4000 in
/-- Witness for C4 on the repository's test configuration (`ControllerConfig(127, 10)`
with the trivial partition): pairs `[[1,0],[3,15]]` with `dt_inner = 5e-8` and
`dt_inter = 5e-7` yield exactly `5.5e-7`, split as one inner and one inter pair. -/
theorem calc_ctrl_latency_spec_witness :
    (∀ p ∈ [((1:ℕ),(0:ℕ)), (3,15)],
        (dlookup p.1 (gen_trivial_mapping 127 10).1).isSome = true ∧
        (dlookup p.2 (gen_trivial_mapping 127 10).1).isSome = true) ∧
    calc_ctrl_latency (gen_trivial_mapping 127 10).1 (5/100000000) (5/10000000)
        [(1,0),(3,15)] =
      some ⟨55/100000000, 5/100000000, 5/10000000, 1⟩ := by
  have h1 : sameCtrl (gen_trivial_mapping 127 10).1 (1,0) = true := by decide
  have h2 : sameCtrl (gen_trivial_mapping 127 10).1 (3,15) = false := by decide
  refine ⟨by decide, ?_⟩
  rw [calc_ctrl_latency_spec _ _ _ _ (by decide)]
  simp [h1, h2, List.countP_cons, List.countP_nil]
  norm_num

/-! ### Coupling-map graphs and the connected partition
(`CmHelper.gen_random_connected_regions`, cm.py 67–130, and
`ControllerConfig._gen_connected_mapping`, controller.py 96–135).
The BFS visit order abstracts rustworkx's: the loop below picks the least
unprocessed node and scans neighbours in edge order, one realization of the
unspecified `next(iter(set))` / `rx.bfs_search` orders. -/

/-- Largest node index mentioned in the coupling map. -/
def maxNode (cm : List (ℕ × ℕ)) : ℕ :=
  cm.foldl (fun a e => max a (max e.1 e.2)) 0

/-- Node set of the rustworkx graph built by `extend_from_edge_list`: all
indices `0 .. maxNode` (rustworkx creates every index up to the largest one
referenced). -/
def cmNodeList (cm : List (ℕ × ℕ)) : List ℕ := List.range (maxNode cm + 1)

/-- Neighbours of `u` in the coupling map (both directions, in edge order). -/
def nbrs (cm : List (ℕ × ℕ)) (u : ℕ) : List ℕ :=
  cm.foldr (fun e acc =>
    if e.1 = u then e.2 :: acc else if e.2 = u then e.1 :: acc else acc) []

/-- Queue-driven BFS (`rx.bfs_search` with a discover-vertex visitor)
restricted to `allowed` nodes; `disc` is the discovery-order list, which
also serves as the visited marking. -/
def bfsAux (cm : List (ℕ × ℕ)) (allowed : List ℕ) :
    ℕ → List ℕ → List ℕ → List ℕ
  | 0, _, disc => disc
  | _ + 1, [], disc => disc
  | fuel + 1, u :: queue, disc =>
    let step := (nbrs cm u).foldl
      (fun (qd : List ℕ × List ℕ) v =>
        if v ∈ allowed ∧ v ∉ qd.2 then (qd.1 ++ [v], qd.2 ++ [v]) else qd)
      (queue, disc)
    bfsAux cm allowed fuel step.1 step.2

/-- BFS discovery order from `start` among the `allowed` nodes. -/
def bfsRun (cm : List (ℕ × ℕ)) (allowed : List ℕ) (start : ℕ) : List ℕ :=
  bfsAux cm allowed (allowed.length + 1) [start] [start]

/-- `rx.is_connected`: every node of the graph is discovered by a BFS from
node 0. -/
def is_connected (cm : List (ℕ × ℕ)) : Bool :=
  (cmNodeList cm).all (fun v => decide (v ∈ bfsRun cm (cmNodeList cm) 0))

/-- The region-carving loop of `gen_random_connected_regions`: pick the next
unprocessed node, BFS inside the remaining nodes, keep the first
`region_size` discovered nodes as one region, remove them, repeat. -/
def regionsLoop (cm : List (ℕ × ℕ)) (region_size : ℕ) :
    ℕ → List ℕ → List (List ℕ)
  | 0, _ => []
  | _ + 1, [] => []
  | fuel + 1, start :: rest =>
    let bfs_nodes := bfsRun cm (start :: rest) start
    let subgraph_nodes := bfs_nodes.take region_size
    subgraph_nodes :: regionsLoop cm region_size fuel
      ((start :: rest).filter (fun v => decide (v ∉ subgraph_nodes)))

/-- The fatal outcomes on the partitioning path: rustworkx's `NullGraph` on
an empty graph, the explicit `ValueError` for a disconnected coupling map,
the `assert num_remain_ctrls >= 0`, and numpy `array_split` with zero
sections. -/
inductive PartitionError where
  | nullGraph
  | disconnected
  | negRemainCtrls
  | splitIntoZero
deriving DecidableEq, Repr

/-- `CmHelper.gen_random_connected_regions` (cm.py 67–130): raises
`ValueError` whenever the coupling graph is disconnected, otherwise carves
BFS regions of at most `region_size` nodes. -/
def gen_random_connected_regions (cm : List (ℕ × ℕ)) (region_size : ℕ) :
    Except PartitionError (List (List ℕ)) :=
  if cm = [] then .error .nullGraph
  else if is_connected cm then
    .ok (regionsLoop cm region_size (cmNodeList cm).length (cmNodeList cm))
  else .error .disconnected

/-- Region-to-controller assignment of `_gen_connected_mapping`
(controller.py 104–135): full-size regions get controllers `0..k-1` in
discovery order, all smaller regions are pooled and split near-evenly over
the remaining controllers (warning only if the pool exceeds `region_size`). -/
def assignRegions (num_controllers region_size : ℕ) (sg_nodes_lst : List (List ℕ)) :
    Except PartitionError (List (ℕ × ℕ) × List (ℕ × List ℕ)) :=
  let full := sg_nodes_lst.filter (fun sg => decide (sg.length = region_size))
  let remain_nodes_lst :=
    (sg_nodes_lst.filter (fun sg => ! decide (sg.length = region_size))).flatten
  let ctrl_idx := full.length
  let m := buildRegionMaps 0 full ([], [])
  if num_controllers < ctrl_idx then .error .negRemainCtrls
  else if remain_nodes_lst = [] then .ok m
  else if num_controllers - ctrl_idx = 0 then .error .splitIntoZero
  else .ok (buildRegionMaps ctrl_idx
    (array_split remain_nodes_lst (num_controllers - ctrl_idx)) m)

/-- `ControllerConfig._gen_connected_mapping` (controller.py 96–135):
`region_size = ceil(num_qubits / num_controllers)`, then BFS carving
followed by region-to-controller assignment. -/
def gen_connected_mapping (num_qubits num_controllers : ℕ) (cm : List (ℕ × ℕ)) :
    Except PartitionError (List (ℕ × ℕ) × List (ℕ × List ℕ)) :=
  let region_size := (num_qubits + num_controllers - 1) / num_controllers
  match gen_random_connected_regions cm region_size with
  | .error e => .error e
  | .ok sg_nodes_lst => assignRegions num_controllers region_size sg_nodes_lst

/-- Mutual inverseness of the two partition maps: `pq_to_ctrl[p] = c` holds
exactly when `p` appears in `ctrl_to_pq[c]`. -/
def MutualInverse (pq2c : List (ℕ × ℕ)) (c2pq : List (ℕ × List ℕ)) : Prop :=
  ∀ p c, dlookup p pq2c = some c ↔ ∃ pqs, dlookup c c2pq = some pqs ∧ p ∈ pqs

/-! ## Claim C9: behaviour on a disconnected coupling graph -/

/-- `assignRegions` can fail only on remainder-pool bookkeeping, never with
the connectivity `ValueError`. -/
theorem assignRegions_ne_disconnected (nc rs : ℕ) (sgs : List (List ℕ)) :
    assignRegions nc rs sgs ≠ Except.error PartitionError.disconnected := by
  intro h
  unfold assignRegions at h
  simp only at h
  split at h
  · simp at h
  · split at h
    · simp at h
    · split at h
      · simp at h
      · simp at h

/-- C9 counterexample: on the disconnected coupling map `[[0,1],[2,3]]` the
connected (remainder-pool) strategy itself raises the `ValueError` from
`gen_random_connected_regions` — it does not degrade to a warning. -/
theorem gen_connected_mapping_disconnected_cex :
    gen_connected_mapping 4 2 [(0,1),(2,3)] =
.error PartitionError.disconnected := by rfl

/-- C9 (amended): for a nonempty coupling map, the connected strategy fails
with the disconnection `ValueError` exactly when the coupling graph is
disconnected; the remainder pool only redistributes undersized BFS regions
of a connected graph (with a warning, not an exception, when the pool is
oversized). -/
theorem gen_connected_mapping_error_disconnected_iff
    (num_qubits num_controllers : ℕ) (cm : List (ℕ × ℕ)) (hcm : cm ≠ []) :
    (gen_connected_mapping num_qubits num_controllers cm =
        Except.error PartitionError.disconnected) ↔
      is_connected cm = false := by
  unfold gen_connected_mapping gen_random_connected_regions
  by_cases hc : is_connected cm
  · simp only [if_neg hcm, hc, if_true]
    simp [assignRegions_ne_disconnected]
  · simp [if_neg hcm, hc]

/-- Witness for C9 (amended) at the disconnected map `[[0,2],[1,3]]`. -/
theorem gen_connected_mapping_error_disconnected_iff_witness :
    gen_connected_mapping 4 2 [(0,2),(1,3)] =
      Except.error PartitionError.disconnected :=
  (gen_connected_mapping_error_disconnected_iff 4 2 [(0,2),(1,3)]
    (by decide)).mpr (by decide)

/-! ### Association-list lemmas -/

theorem dlookup_dinsert [DecidableEq κ] (k k' : κ) (v : α) (m : List (κ × α)) :
    dlookup k (dinsert k' v m) = if k = k' then some v else dlookup k m := by
  induction m with
  | nil => by_cases h : k = k' <;> simp [dinsert, dlookup, h]
  | cons e rest ih =>
    obtain ⟨ek, ev⟩ := e
    by_cases h1 : k' = ek
    · subst h1
      by_cases h2 : k = k' <;> simp [dinsert, dlookup, h2]
    · by_cases h2 : k = ek
      · subst h2
        have h3 : ¬ k = k' := fun h => h1 h.symm
        simp [dinsert, dlookup, h1, h3]
      · simp [dinsert, dlookup, h1, h2, ih]

theorem dlookup_eq_none_of_not_mem [DecidableEq κ] (k : κ) (m : List (κ × α))
    (h : k ∉ dkeys m) : dlookup k m = none := by
  induction m with
  | nil => rfl
  | cons e rest ih =>
    obtain ⟨ek, ev⟩ := e
    simp only [dkeys, List.map_cons, List.mem_cons] at h
    push_neg at h
    simp [dlookup, h.1, ih (by simp [dkeys, h.2])]

theorem dinsert_of_not_mem [DecidableEq κ] (k : κ) (v : α) (m : List (κ × α))
    (h : k ∉ dkeys m) : dinsert k v m = m ++ [(k, v)] := by
  induction m with
  | nil => rfl
  | cons e rest ih =>
    obtain ⟨ek, ev⟩ := e
    simp only [dkeys, List.map_cons, List.mem_cons] at h
    push_neg at h
    simp [dinsert, h.1, ih (by simp [dkeys, h.2])]

theorem dlookup_foldl_dinsert (sub : List ℕ) (c : ℕ) (m : List (ℕ × ℕ)) (p : ℕ) :
    dlookup p (sub.foldl (fun pq2c pq => dinsert pq c pq2c) m) =
      if p ∈ sub then some c else dlookup p m := by
  induction sub generalizing m with
  | nil => simp
  | cons q qs ih =>
    rw [List.foldl_cons, ih]
    by_cases h : p ∈ qs
    · simp [h]
    · by_cases h2 : p = q <;> simp [h, h2, dlookup_dinsert]

theorem mutualInverse_nil :
    MutualInverse ([] : List (ℕ × ℕ)) ([] : List (ℕ × List ℕ)) := by
  intro p c; simp [dlookup]

/-- The region-registration loop turns disjoint regions with fresh
controller ids into mutually inverse maps, bounds the new controller ids,
and leaves unrelated physical qubits untouched. -/
theorem buildRegionMaps_spec (regions : List (List ℕ)) (start : ℕ)
    (m : List (ℕ × ℕ) × List (ℕ × List ℕ))
    (hnd : regions.flatten.Nodup)
    (hfresh : ∀ p ∈ regions.flatten, dlookup p m.1 = none)
    (hkeys : ∀ k ∈ dkeys m.2, k < start)
    (hinv : MutualInverse m.1 m.2) :
    MutualInverse (buildRegionMaps start regions m).1 (buildRegionMaps start regions m).2 ∧
    (∀ k ∈ dkeys (buildRegionMaps start regions m).2, k < start + regions.length) ∧
    (∀ p, p ∉ regions.flatten →
      dlookup p (buildRegionMaps start regions m).1 = dlookup p m.1) := by
  induction regions generalizing start m with
  | nil =>
    refine ⟨hinv, fun k hk => ?_, fun p _ => rfl⟩
    simpa using hkeys k hk
  | cons sub rest ih =>
    rw [buildRegionMaps]
    have hflat : (sub ++ rest.flatten).Nodup := by simpa using hnd
    obtain ⟨hsub_nd, hrest_nd, hdisj⟩ := List.nodup_append.mp hflat
    have hstart_not : start ∉ dkeys m.2 := fun hmem => lt_irrefl _ (hkeys _ hmem)
    have hA : ∀ p, dlookup p (sub.foldl (fun pq2c pq => dinsert pq start pq2c) m.1) =
        if p ∈ sub then some start else dlookup p m.1 :=
      fun p => dlookup_foldl_dinsert sub start m.1 p
    have hB : ∀ c, dlookup c (dinsert start sub m.2) =
        if c = start then some sub else dlookup c m.2 :=
      fun c => dlookup_dinsert c start sub m.2
    have hinv' : MutualInverse (sub.foldl (fun pq2c pq => dinsert pq start pq2c) m.1)
        (dinsert start sub m.2) := by
      intro p c
      rw [hA p]
      by_cases hp : p ∈ sub
      · simp only [hp, if_true]
        constructor
        · intro h
          have hcs : start = c := Option.some.inj h
          subst hcs
          exact ⟨sub, by rw [hB]; simp, hp⟩
        · rintro ⟨pqs, hpqs, hppqs⟩
          rw [hB] at hpqs
          by_cases hc : c = start
          · rw [hc]
          · rw [if_neg hc] at hpqs
            have hlook := (hinv p c).mpr ⟨pqs, hpqs, hppqs⟩
            rw [hfresh p (by simp [hp])] at hlook
            cases hlook
      · simp only [hp, if_false]
        constructor
        · intro h
          by_cases hc : c = start
          · exfalso
            obtain ⟨pqs, hpqs, _⟩ := (hinv p c).mp h
            rw [hc] at hpqs
            rw [dlookup_eq_none_of_not_mem _ _ hstart_not] at hpqs
            cases hpqs
          · obtain ⟨pqs, hpqs, hmem⟩ := (hinv p c).mp h
            exact ⟨pqs, by rw [hB, if_neg hc]; exact hpqs, hmem⟩
        · rintro ⟨pqs, hpqs, hmem⟩
          rw [hB] at hpqs
          by_cases hc : c = start
          · rw [if_pos hc] at hpqs
            have : sub = pqs := Option.some.inj hpqs
            subst this
            exact absurd hmem hp
          · rw [if_neg hc] at hpqs
            exact (hinv p c).mpr ⟨pqs, hpqs, hmem⟩
    have hkeys' : ∀ k ∈ dkeys (dinsert start sub m.2), k < start + 1 := by
      rw [dinsert_of_not_mem _ _ _ hstart_not]
      intro k hk
      simp only [dkeys, List.map_append, List.mem_append, List.map_cons,
        List.mem_singleton, List.map_nil, List.mem_cons, List.not_mem_nil,
        or_false] at hk
      rcases hk with hk | hk
      · exact Nat.lt_succ_of_lt (hkeys k hk)
      · simp [hk]
    have hfresh' : ∀ p ∈ rest.flatten,
        dlookup p (sub.foldl (fun pq2c pq => dinsert pq start pq2c) m.1) = none := by
      intro p hp
      rw [hA p, if_neg (fun hmem => hdisj hmem hp)]
      exact hfresh p (by simp [hp])
    obtain ⟨r1, r2, r3⟩ := ih (start + 1)
      (sub.foldl (fun pq2c pq => dinsert pq start pq2c) m.1, dinsert start sub m.2)
      hrest_nd hfresh' hkeys' hinv'
    refine ⟨r1, ?_, ?_⟩
    · intro k hk
      have := r2 k hk
      simp only [List.length_cons]
      omega
    · intro p hp
      have hp1 : p ∉ sub := fun h => hp (by simp [h])
      have hp2 : p ∉ rest.flatten := fun h => hp (by simp [h])
      rw [r3 p hp2, hA p, if_neg hp1]

theorem takeChunks_flatten (ss : List ℕ) (l : List α) :
    (takeChunks l ss).flatten = l.take ss.sum := by
  induction ss generalizing l with
  | nil => simp [takeChunks]
  | cons s ss ih =>
    rw [takeChunks, List.flatten_cons, ih, List.sum_cons, List.take_add]

theorem array_split_flatten_sublist (l : List α) (k : ℕ) :
    (array_split l k).flatten.Sublist l := by
  rw [array_split, takeChunks_flatten]
  exact List.take_sublist _ _

theorem flatten_filter_sublist (p : List α → Bool) (l : List (List α)) :
    ((l.filter p).flatten).Sublist l.flatten := by
  induction l with
  | nil => simp
  | cons a t ih =>
    by_cases h : p a
    · simpa [List.filter_cons, h] using ih.append_left a
    · simp only [List.filter_cons, h, Bool.false_eq_true, if_false, List.flatten_cons]
      exact ih.trans (List.sublist_append_right a t.flatten)

theorem flatten_filter_disjoint (p : List α → Bool) (l : List (List α))
    (h : l.flatten.Nodup) :
    ∀ x ∈ (l.filter (fun s => p s)).flatten,
      x ∉ (l.filter (fun s => ! p s)).flatten := by
  induction l with
  | nil => simp
  | cons a t ih =>
    rw [List.flatten_cons, List.nodup_append] at h
    obtain ⟨ha, ht, hdisj⟩ := h
    intro x hx hx2
    by_cases hp : p a
    · simp only [List.filter_cons, hp, Bool.not_true, Bool.false_eq_true, if_false,
        if_true, List.flatten_cons, List.mem_append] at hx hx2
      rcases hx with hx | hx
      · exact hdisj hx ((flatten_filter_sublist _ t).subset hx2)
      · exact ih ht x hx hx2
    · simp only [List.filter_cons, hp, Bool.not_false, Bool.false_eq_true, if_false,
        if_true, List.flatten_cons, List.mem_append] at hx hx2
      rcases hx2 with hx2 | hx2
      · exact hdisj hx2 ((flatten_filter_sublist _ t).subset hx)
      · exact ih ht x hx hx2

/-! ### BFS invariants -/

theorem bfs_foldl_inv (allowed : List ℕ) (nl : List ℕ) (qd : List ℕ × List ℕ)
    (h : qd.2.Nodup) :
    (nl.foldl (fun qd v =>
        if v ∈ allowed ∧ v ∉ qd.2 then (qd.1 ++ [v], qd.2 ++ [v]) else qd) qd).2.Nodup ∧
    ∀ x ∈ (nl.foldl (fun qd v =>
        if v ∈ allowed ∧ v ∉ qd.2 then (qd.1 ++ [v], qd.2 ++ [v]) else qd) qd).2,
      x ∈ qd.2 ∨ x ∈ allowed := by
  induction nl generalizing qd with
  | nil => exact ⟨h, fun x hx => .inl hx⟩
  | cons v nl ih =>
    rw [List.foldl_cons]
    by_cases hv : v ∈ allowed ∧ v ∉ qd.2
    · rw [if_pos hv]
      have hnd : (qd.2 ++ [v]).Nodup := by
        rw [List.nodup_append]
        exact ⟨h, List.nodup_singleton v, fun a ha hav => hv.2 (by
          simpa using (List.mem_singleton.mp hav) ▸ ha)⟩
      obtain ⟨h1, h2⟩ := ih (qd.1 ++ [v], qd.2 ++ [v]) hnd
      refine ⟨h1, fun x hx => ?_⟩
      rcases h2 x hx with hx2 | hx2
      · rcases List.mem_append.mp hx2 with hx3 | hx3
        · exact .inl hx3
        · exact .inr (by simpa using (List.mem_singleton.mp hx3) ▸ hv.1)
      · exact .inr hx2
    · rw [if_neg hv]
      exact ih qd h

theorem bfsAux_inv (cm : List (ℕ × ℕ)) (allowed : List ℕ) :
    ∀ (fuel : ℕ) (queue disc : List ℕ), disc.Nodup →
      (bfsAux cm allowed fuel queue disc).Nodup ∧
      ∀ x ∈ bfsAux cm allowed fuel queue disc, x ∈ disc ∨ x ∈ allowed := by
  intro fuel
  induction fuel with
  | zero => exact fun queue disc h => ⟨h, fun x hx => .inl hx⟩
  | succ n ih =>
    intro queue disc h
    match queue with
    | [] => exact ⟨h, fun x hx => .inl hx⟩
    | u :: rest =>
      rw [bfsAux]
      obtain ⟨h1, h2⟩ := bfs_foldl_inv allowed (nbrs cm u) (rest, disc) h
      obtain ⟨h3, h4⟩ := ih _ _ h1
      refine ⟨h3, fun x hx => ?_⟩
      rcases h4 x hx with hx2 | hx2
      · exact h2 x hx2
      · exact .inr hx2

theorem bfsRun_nodup (cm : List (ℕ × ℕ)) (allowed : List ℕ) (start : ℕ) :
    (bfsRun cm allowed start).Nodup :=
  (bfsAux_inv cm allowed (allowed.length + 1) [start] [start]
    (List.nodup_singleton start)).1

theorem bfsRun_subset (cm : List (ℕ × ℕ)) (allowed : List ℕ) (start : ℕ) :
    ∀ x ∈ bfsRun cm allowed start, x = start ∨ x ∈ allowed := by
  intro x hx
  rcases (bfsAux_inv cm allowed (allowed.length + 1) [start] [start]
    (List.nodup_singleton start)).2 x hx with h | h
  · exact .inl (List.mem_singleton.mp h)
  · exact .inr h

/-! ### The BFS region-carving loop keeps regions disjoint -/

theorem regionsLoop_inv (cm : List (ℕ × ℕ)) (rs : ℕ) :
    ∀ (fuel : ℕ) (remaining : List ℕ), remaining.Nodup →
      (regionsLoop cm rs fuel remaining).flatten.Nodup ∧
      ∀ x ∈ (regionsLoop cm rs fuel remaining).flatten, x ∈ remaining := by
  intro fuel
  induction fuel with
  | zero => simp [regionsLoop]
  | succ n ih =>
    intro remaining hnd
    match remaining with
    | [] => simp [regionsLoop]
    | start :: rest =>
      rw [regionsLoop]
      simp only [List.flatten_cons]
      have hb_nd := bfsRun_nodup cm (start :: rest) start
      have hb_sub := bfsRun_subset cm (start :: rest) start
      have hchunk_nd : ((bfsRun cm (start :: rest) start).take rs).Nodup :=
        (List.take_sublist _ _).nodup hb_nd
      have hchunk_sub : ∀ x ∈ (bfsRun cm (start :: rest) start).take rs,
          x ∈ start :: rest := by
        intro x hx
        rcases hb_sub x (List.take_subset _ _ hx) with h | h
        · exact h ▸ List.mem_cons_self ..
        · exact h
      have hrem_nd : ((start :: rest).filter
          (fun v => decide (v ∉ (bfsRun cm (start :: rest) start).take rs))).Nodup :=
        hnd.filter _
      obtain ⟨h1, h2⟩ := ih _ hrem_nd
      constructor
      · rw [List.nodup_append]
        refine ⟨hchunk_nd, h1, fun a ha ha2 => ?_⟩
        have := h2 a ha2
        rw [List.mem_filter] at this
        exact (by simpa using this.2 : a ∉ _) ha
      · intro x hx
        rcases List.mem_append.mp hx with hx2 | hx2
        · exact hchunk_sub x hx2
        · exact List.mem_of_mem_filter (h2 x hx2)

/-- Any successful `assignRegions` on regions with globally duplicate-free
nodes yields mutually inverse maps. -/
theorem assignRegions_mutualInverse (nc rs : ℕ) (sgs : List (List ℕ))
    (hnd : sgs.flatten.Nodup) (m : List (ℕ × ℕ) × List (ℕ × List ℕ))
    (hok : assignRegions nc rs sgs = .ok m) :
    MutualInverse m.1 m.2 := by
  unfold assignRegions at hok
  simp only at hok
  have hfullnd : (sgs.filter (fun sg => decide (sg.length = rs))).flatten.Nodup :=
    (flatten_filter_sublist _ _).nodup hnd
  have h1 := buildRegionMaps_spec (sgs.filter (fun sg => decide (sg.length = rs))) 0
    ([], []) hfullnd (fun p _ => rfl) (by simp [dkeys]) mutualInverse_nil
  split at hok
  · cases hok
  · split at hok
    · cases hok
      exact h1.1
    · split at hok
      · cases hok
      · cases hok
        have hremnd : ((sgs.filter (fun sg => ! decide (sg.length = rs))).flatten).Nodup :=
          (flatten_filter_sublist _ _).nodup hnd
        have hsplitnd : ((array_split
            (sgs.filter (fun sg => ! decide (sg.length = rs))).flatten
            (nc - (sgs.filter (fun sg => decide (sg.length = rs))).length)).flatten).Nodup :=
          (array_split_flatten_sublist _ _).nodup hremnd
        have hfresh2 : ∀ p ∈ (array_split
            (sgs.filter (fun sg => ! decide (sg.length = rs))).flatten
            (nc - (sgs.filter (fun sg => decide (sg.length = rs))).length)).flatten,
            dlookup p (buildRegionMaps 0
              (sgs.filter (fun sg => decide (sg.length = rs))) ([], [])).1 = none := by
          intro p hp
          have hp_rem : p ∈ (sgs.filter (fun sg => ! decide (sg.length = rs))).flatten :=
            (array_split_flatten_sublist _ _).subset hp
          have hp_not_full : p ∉ (sgs.filter (fun sg => decide (sg.length = rs))).flatten :=
            fun hfull => flatten_filter_disjoint _ sgs hnd p hfull hp_rem
          rw [h1.2.2 p hp_not_full]; rfl
        exact (buildRegionMaps_spec _ _ _ hsplitnd hfresh2
          (by simpa using h1.2.1) h1.1).1

/-! ## Claim C7: `pq_to_ctrl` and `ctrl_to_pq` are mutual inverses -/

/-- C7: under both partition strategies, every generated pair of maps is
mutually inverse: `pq_to_ctrl[p] = c` exactly when `p ∈ ctrl_to_pq[c]`. -/
theorem partition_maps_mutual_inverse :
    (∀ num_qubits num_controllers : ℕ, 0 < num_controllers →
      MutualInverse (gen_trivial_mapping num_qubits num_controllers).1
        (gen_trivial_mapping num_qubits num_controllers).2) ∧
    (∀ (num_qubits num_controllers : ℕ) (cm : List (ℕ × ℕ))
        (m : List (ℕ × ℕ) × List (ℕ × List ℕ)),
      gen_connected_mapping num_qubits num_controllers cm = .ok m →
      MutualInverse m.1 m.2) := by
  constructor
  · intro nq nc _
    have hnd : ((array_split (List.range nq) nc).flatten).Nodup :=
      (array_split_flatten_sublist _ _).nodup (List.nodup_range nq)
    exact (buildRegionMaps_spec _ 0 ([], []) hnd (fun p _ => rfl)
      (by simp [dkeys]) mutualInverse_nil).1
  · intro nq nc cm m hok
    unfold gen_connected_mapping gen_random_connected_regions at hok
    split at hok
    · cases hok
    · split at hok
      · have hnd : ((regionsLoop cm ((nq + nc - 1) / nc) (cmNodeList cm).length
            (cmNodeList cm)).flatten).Nodup :=
          (regionsLoop_inv cm _ _ _ (List.nodup_range _)).1
        exact assignRegions_mutualInverse _ _ _ hnd m hok
      · cases hok

/-- Witness for C7: the trivial `6/3` partition maps physical qubit 4 to
controller 2, and the connected partition of the path `0-1-2-3` over two
controllers maps physical qubit 2 to controller 1. -/
theorem partition_maps_mutual_inverse_witness :
    dlookup 4 (gen_trivial_mapping 6 3).1 = some 2 ∧
    dlookup 2 ([((0:ℕ),(0:ℕ)), (1,0), (2,1), (3,1)]) = some 1 :=
  ⟨((partition_maps_mutual_inverse.1 6 3 (by decide)) 4 2).mpr
      ⟨[4, 5], by decide, by decide⟩,
    ((partition_maps_mutual_inverse.2 4 2 [(0,1),(1,2),(2,3)]
        ([(0,0),(1,0),(2,1),(3,1)], [(0,[0,1]),(1,[2,3])]) rfl) 2 1).mpr
      ⟨[2, 3], by decide, by decide⟩⟩

/-! ### Conditional-pair extraction, `get_cif_qubit_pairs`
(utils/misc.py 43–108).  Failures (the `assert len(cargs) == len(qargs)`,
`measure_map[c]` and `map_creg_qubits[c]` KeyErrors) are `none`. -/

/-- `map_creg_qubits.setdefault(register, []).append(qubit)`. -/
def dappend (r : ℕ) (q : ℕ) (m : List (ℕ × List ℕ)) : List (ℕ × List ℕ) :=
  match dlookup r m with
  | some l => dinsert r (l ++ [q]) m
  | none => dinsert r [q] m

/-- One step of the measurement bookkeeping: record the latest measured
qubit for the clbit and append the qubit to the clbit's register entry. -/
def measStep (st : List (Clbit × ℕ) × List (ℕ × List ℕ)) (cq : Clbit × ℕ) :
    List (Clbit × ℕ) × List (ℕ × List ℕ) :=
  (dinsert cq.1 cq.2 st.1, dappend cq.1.reg cq.2 st.2)

/-- The pairs emitted for one instruction's condition, given the current
`measure_map` and `map_creg_qubits`: a single-bit condition pairs each qubit
argument with `measure_map[bit]`; a register condition pairs each qubit
argument with every qubit in `map_creg_qubits[register]` (one per prior
measurement event, in order). -/
def condPairs (mm : List (Clbit × ℕ)) (mcq : List (ℕ × List ℕ)) (ins : Instr) :
    Option (List (ℕ × ℕ)) :=
  match ins.condition with
  | none => some []
  | some (.bit c) =>
    match dlookup c mm with
    | some src => some (ins.qargs.map (fun q => (q, src)))
    | none => none
  | some (.creg r) =>
    match dlookup r mcq with
    | some cond_q_lst =>
      some (cond_q_lst.flatMap (fun cond_q => ins.qargs.map (fun q => (q, cond_q))))
    | none => none

/-- The instruction loop of `get_cif_qubit_pairs`: measurements update the
state first, then the (possibly same) instruction's condition emits pairs. -/
def cifLoop : List Instr → List (Clbit × ℕ) → List (ℕ × List ℕ) →
    Option (List (ℕ × ℕ))
  | [], _, _ => some []
  | ins :: rest, mm, mcq =>
    if ins.name = "measure" then
      if ins.cargs.length = ins.qargs.length then
        let st := (ins.cargs.zip ins.qargs).foldl measStep (mm, mcq)
        match condPairs st.1 st.2 ins, cifLoop rest st.1 st.2 with
        | some ps, some rest_ps => some (ps ++ rest_ps)
        | _, _ => none
      else none
    else
      match condPairs mm mcq ins, cifLoop rest mm mcq with
      | some ps, some rest_ps => some (ps ++ rest_ps)
      | _, _ => none

/-- `get_cif_qubit_pairs` (utils/misc.py 43–108). -/
def get_cif_qubit_pairs (data : List Instr) : Option (List (ℕ × ℕ)) :=
  cifLoop data [] []

/-- The register branch as the claim words it: pairs `(q, measure_map[b])`
for every bit `b` of the register that currently has an entry in
`measure_map` (in `measure_map` order), never a `KeyError`. -/
def condPairsSpec (mm : List (Clbit × ℕ)) (_mcq : List (ℕ × List ℕ)) (ins : Instr) :
    Option (List (ℕ × ℕ)) :=
  match ins.condition with
  | none => some []
  | some (.bit c) =>
    match dlookup c mm with
    | some src => some (ins.qargs.map (fun q => (q, src)))
    | none => none
  | some (.creg r) =>
    some ((mm.filter (fun e => decide (e.1.reg = r))).flatMap
      (fun e => ins.qargs.map (fun q => (q, e.2))))

/-- The claim's version of the extraction loop (register branch replaced by
the `measure_map`-based cross product). -/
def cifLoopSpec : List Instr → List (Clbit × ℕ) → List (ℕ × List ℕ) →
    Option (List (ℕ × ℕ))
  | [], _, _ => some []
  | ins :: rest, mm, mcq =>
    if ins.name = "measure" then
      if ins.cargs.length = ins.qargs.length then
        let st := (ins.cargs.zip ins.qargs).foldl measStep (mm, mcq)
        match condPairsSpec st.1 st.2 ins, cifLoopSpec rest st.1 st.2 with
        | some ps, some rest_ps => some (ps ++ rest_ps)
        | _, _ => none
      else none
    else
      match condPairsSpec mm mcq ins, cifLoopSpec rest mm mcq with
      | some ps, some rest_ps => some (ps ++ rest_ps)
      | _, _ => none

/-- The extraction the claim describes. -/
def get_cif_qubit_pairsSpec (data : List Instr) : Option (List (ℕ × ℕ)) :=
  cifLoopSpec data [] []

/-- All clbits written by measurement instructions, in circuit order. -/
def measuredBits : List Instr → List Clbit
  | [] => []
  | ins :: rest =>
    (if ins.name = "measure" then ins.cargs else []) ++ measuredBits rest

/-! ## Claim C5: register-condition pair extraction -/

/-- C5 counterexample: with clbit `c0` measured twice (first from qubit 0,
then from qubit 1), a gate on qubit 2 conditioned on `c0`'s register emits
one pair per measurement event — `[(2,0),(2,1)]` — whereas the claim's
`measure_map` cross product yields only `[(2,1)]` (the most recent source). -/
theorem get_cif_qubit_pairs_creg_cex :
    get_cif_qubit_pairs
      [⟨"measure", [0], [⟨0,0⟩], none⟩, ⟨"measure", [1], [⟨0,0⟩], none⟩,
       ⟨"x", [2], [], some (Cond.creg 0)⟩] = some [(2,0),(2,1)] ∧
    get_cif_qubit_pairsSpec
      [⟨"measure", [0], [⟨0,0⟩], none⟩, ⟨"measure", [1], [⟨0,0⟩], none⟩,
       ⟨"x", [2], [], some (Cond.creg 0)⟩] = some [(2,1)] ∧
    get_cif_qubit_pairs
      [⟨"measure", [0], [⟨0,0⟩], none⟩, ⟨"measure", [1], [⟨0,0⟩], none⟩,
       ⟨"x", [2], [], some (Cond.creg 0)⟩] ≠
    get_cif_qubit_pairsSpec
      [⟨"measure", [0], [⟨0,0⟩], none⟩, ⟨"measure", [1], [⟨0,0⟩], none⟩,
       ⟨"x", [2], [], some (Cond.creg 0)⟩] := by
  refine ⟨rfl, rfl, ?_⟩
  decide

/-- The relation the code maintains between `map_creg_qubits` and
`measure_map` as long as no clbit is measured twice: each register entry
lists exactly the `measure_map` sources of that register's bits, in order,
and registers without an entry have no measured bits. -/
def McqInv (mm : List (Clbit × ℕ)) (mcq : List (ℕ × List ℕ)) : Prop :=
  ∀ r : ℕ,
    (∀ l, dlookup r mcq = some l →
      l = (mm.filter (fun e => decide (e.1.reg = r))).map Prod.snd) ∧
    (dlookup r mcq = none → mm.filter (fun e => decide (e.1.reg = r)) = [])

theorem dappend_some (r q : ℕ) (m : List (ℕ × List ℕ)) (l : List ℕ)
    (h : dlookup r m = some l) : dappend r q m = dinsert r (l ++ [q]) m := by
  unfold dappend; rw [h]

theorem dappend_none (r q : ℕ) (m : List (ℕ × List ℕ))
    (h : dlookup r m = none) : dappend r q m = dinsert r [q] m := by
  unfold dappend; rw [h]

theorem measFold_inv (cqs : List (Clbit × ℕ)) :
    ∀ (mm : List (Clbit × ℕ)) (mcq : List (ℕ × List ℕ)), McqInv mm mcq →
      (dkeys mm ++ cqs.map Prod.fst).Nodup →
      McqInv (cqs.foldl measStep (mm, mcq)).1 (cqs.foldl measStep (mm, mcq)).2 ∧
      dkeys (cqs.foldl measStep (mm, mcq)).1 = dkeys mm ++ cqs.map Prod.fst := by
  induction cqs with
  | nil => intro mm mcq hinv _; exact ⟨hinv, by simp⟩
  | cons cq rest ih =>
    intro mm mcq hinv hnd
    obtain ⟨c, q⟩ := cq
    simp only [List.foldl_cons, measStep]
    have hc_not : c ∉ dkeys mm := by
      intro hmem
      exact (List.nodup_append.mp hnd).2.2 hmem (by simp)
    have hmm' : dinsert c q mm = mm ++ [(c, q)] := dinsert_of_not_mem _ _ _ hc_not
    have hinv' : McqInv (dinsert c q mm) (dappend c.reg q mcq) := by
      intro r
      rw [hmm']
      by_cases hr : r = c.reg
      · subst hr
        cases hml : dlookup c.reg mcq with
        | some l =>
          rw [dappend_some c.reg q mcq l hml]
          constructor
          · intro l' hl'
            rw [dlookup_dinsert, if_pos rfl] at hl'
            have hl'' : l ++ [q] = l' := Option.some.inj hl'
            rw [← hl'', (hinv c.reg).1 l hml, List.filter_append]
            simp
          · intro hnone
            rw [dlookup_dinsert, if_pos rfl] at hnone
            cases hnone
        | none =>
          rw [dappend_none c.reg q mcq hml]
          constructor
          · intro l' hl'
            rw [dlookup_dinsert, if_pos rfl] at hl'
            have hl'' : [q] = l' := Option.some.inj hl'
            rw [← hl'', List.filter_append, (hinv c.reg).2 hml]
            simp
          · intro hnone
            rw [dlookup_dinsert, if_pos rfl] at hnone
            cases hnone
      · have hfilter : (mm ++ [(c, q)]).filter (fun e => decide (e.1.reg = r)) =
            mm.filter (fun e => decide (e.1.reg = r)) := by
          rw [List.filter_append]
          have : (fun e : Clbit × ℕ => decide (e.1.reg = r)) (c, q) = false := by
            simp
            exact fun h => hr h.symm
          simp [List.filter_cons, this]
        have hlk : ∀ x, dlookup r (dappend c.reg q mcq) = x → dlookup r mcq = x := by
          intro x hx
          cases hml : dlookup c.reg mcq with
          | some l =>
            rw [dappend_some c.reg q mcq l hml, dlookup_dinsert, if_neg hr] at hx
            exact hx
          | none =>
            rw [dappend_none c.reg q mcq hml, dlookup_dinsert, if_neg hr] at hx
            exact hx
        constructor
        · intro l' hl'
          rw [hfilter]
          exact (hinv r).1 l' (hlk _ hl')
        · intro hnone
          rw [hfilter]
          exact (hinv r).2 (hlk _ hnone)
    have hkeys' : dkeys (dinsert c q mm) = dkeys mm ++ [c] := by
      rw [hmm']; simp [dkeys]
    have hnd2 : (dkeys (dinsert c q mm) ++ rest.map Prod.fst).Nodup := by
      rw [hkeys', List.append_assoc]
      simpa using hnd
    obtain ⟨r1, r2⟩ := ih (dinsert c q mm) (dappend c.reg q mcq) hinv' hnd2
    refine ⟨r1, ?_⟩
    rw [r2, hkeys', List.append_assoc]
    simp

theorem condPairs_agree (mm : List (Clbit × ℕ)) (mcq : List (ℕ × List ℕ))
    (ins : Instr) (hinv : McqInv mm mcq) :
    ∀ ps, condPairs mm mcq ins = some ps → condPairsSpec mm mcq ins = some ps := by
  intro ps h
  unfold condPairs at h
  unfold condPairsSpec
  match hc : ins.condition with
  | none => rw [hc] at h; exact h
  | some (Cond.bit c) => rw [hc] at h; exact h
  | some (Cond.creg r) =>
    rw [hc] at h
    have h' : (match dlookup r mcq with
        | some cond_q_lst =>
          some (cond_q_lst.flatMap fun cond_q => ins.qargs.map (fun q => (q, cond_q)))
        | none => none) = some ps := h
    show some ((mm.filter (fun e => decide (e.1.reg = r))).flatMap
      fun e => ins.qargs.map (fun q => (q, e.2))) = some ps
    cases hl : dlookup r mcq with
    | none => rw [hl] at h'; cases h'
    | some l =>
      rw [hl] at h'
      have hps := Option.some.inj h'
      rw [← hps, (hinv r).1 l hl, List.flatMap_map]

theorem cifLoop_spec_agreement (data : List Instr) :
    ∀ (mm : List (Clbit × ℕ)) (mcq : List (ℕ × List ℕ)),
      McqInv mm mcq →
      (dkeys mm ++ measuredBits data).Nodup →
      ∀ ps, cifLoop data mm mcq = some ps → cifLoopSpec data mm mcq = some ps := by
  induction data with
  | nil => intro mm mcq _ _ ps h; exact h
  | cons ins rest ih =>
    intro mm mcq hinv hnd ps h
    rw [cifLoop] at h
    rw [cifLoopSpec]
    by_cases hmeas : ins.name = "measure"
    · rw [if_pos hmeas] at h ⊢
      by_cases hlen : ins.cargs.length = ins.qargs.length
      · rw [if_pos hlen] at h ⊢
        simp only at h ⊢
        have hnd' : (dkeys mm ++ (ins.cargs ++ measuredBits rest)).Nodup := by
          rw [measuredBits, if_pos hmeas] at hnd
          exact hnd
        have hmapfst : (ins.cargs.zip ins.qargs).map Prod.fst = ins.cargs :=
          List.map_fst_zip _ _ (le_of_eq hlen)
        have hnd_fold : (dkeys mm ++ (ins.cargs.zip ins.qargs).map Prod.fst).Nodup := by
          rw [hmapfst]
          refine List.Nodup.sublist ?_ hnd'
          rw [← List.append_assoc]
          exact List.sublist_append_left _ _
        obtain ⟨hinv', hkeys'⟩ := measFold_inv (ins.cargs.zip ins.qargs) mm mcq hinv hnd_fold
        have hnd_rest : (dkeys ((ins.cargs.zip ins.qargs).foldl measStep (mm, mcq)).1 ++
            measuredBits rest).Nodup := by
          rw [hkeys', hmapfst, List.append_assoc]
          exact hnd'
        cases hcp : condPairs ((ins.cargs.zip ins.qargs).foldl measStep (mm, mcq)).1
            ((ins.cargs.zip ins.qargs).foldl measStep (mm, mcq)).2 ins with
        | none => rw [hcp] at h; cases h
        | some ps1 =>
          rw [hcp] at h
          cases hrest : cifLoop rest ((ins.cargs.zip ins.qargs).foldl measStep (mm, mcq)).1
              ((ins.cargs.zip ins.qargs).foldl measStep (mm, mcq)).2 with
          | none => rw [hrest] at h; cases h
          | some ps2 =>
            rw [hrest] at h
            rw [condPairs_agree _ _ _ hinv' ps1 hcp,
              ih _ _ hinv' hnd_rest ps2 hrest]
            exact h
      · rw [if_neg hlen] at h
        cases h
    · rw [if_neg hmeas] at h ⊢
      have hnd' : (dkeys mm ++ measuredBits rest).Nodup := by
        rw [measuredBits, if_neg hmeas] at hnd
        simpa using hnd
      cases hcp : condPairs mm mcq ins with
      | none => rw [hcp] at h; cases h
      | some ps1 =>
        rw [hcp] at h
        cases hrest : cifLoop rest mm mcq with
        | none => rw [hrest] at h; cases h
        | some ps2 =>
          rw [hrest] at h
          rw [condPairs_agree _ _ _ hinv ps1 hcp, ih _ _ hinv hnd' ps2 hrest]
          exact h

/-- C5 (amended): the register branch pairs each qubit argument with every
qubit previously measured into a bit of the register, one pair per
measurement event in order; whenever no classical bit is measured twice in
the circuit and the extraction succeeds, this coincides with the claim's
cross product over `measure_map` entries. -/
theorem get_cif_qubit_pairs_creg_agreement (data : List Instr) (ps : List (ℕ × ℕ))
    (hnd : (measuredBits data).Nodup)
    (hok : get_cif_qubit_pairs data = some ps) :
    get_cif_qubit_pairsSpec data = some ps :=
  cifLoop_spec_agreement data [] []
    (fun _ => ⟨fun _ hl => Option.noConfusion hl, fun _ => rfl⟩)
    (by simpa [dkeys] using hnd) ps hok

/-- Witness for C5 (amended) on the repository's creg toy test: qubit 0 is
measured into `creg[0]` and a conditioned `cx` on qubits 0,1 yields pairs
`[(0,0),(1,0)]` under both the code and the claim's description. -/
theorem get_cif_qubit_pairs_creg_agreement_witness :
    get_cif_qubit_pairsSpec
      [⟨"measure", [0], [⟨0,0⟩], none⟩, ⟨"cx", [0,1], [], some (Cond.creg 0)⟩] =
      some [(0,0),(1,0)] :=
  get_cif_qubit_pairs_creg_agreement _ _ (by decide) (by decide)

/-! ### Deduplicating latency evaluation, `EvalV3.calc_ctrl_latency`
(evaluator.py 274–348) -/

/-- One conditional-pair occurrence as consumed by `EvalV3`: target and
condition-source physical qubits plus the first-use flag (`state = True`
means the source's measurement result is used for the first time). -/
structure CifOcc where
  targ : ℕ
  ctrl : ℕ
  state : Bool
deriving DecidableEq, Repr

/-- `math.isclose` with its default tolerances
(`rel_tol = 1e-9`, `abs_tol = 0.0`). -/
def isclose (a b : ℚ) : Bool :=
  decide (|a - b| ≤ 1 / 1000000000 * max |a| |b|)

/-- Add one inner-controller charge to the accumulators. -/
def addInner (dt : ℚ) (t : CtrlLatencyResult) : CtrlLatencyResult :=
  ⟨t.ctrl_latency + dt, t.inner_latency + dt, t.inter_latency, t.num_inter_cif⟩

/-- Add one inter-controller charge to the accumulators. -/
def addInter (dt : ℚ) (t : CtrlLatencyResult) : CtrlLatencyResult :=
  ⟨t.ctrl_latency + dt, t.inner_latency, t.inter_latency + dt, t.num_inter_cif + 1⟩

/-- The per-pair loop of `EvalV3.calc_ctrl_latency` carrying the running
totals and the source-qubit latency cache.  A first use whose source is
already cached (re-measurement) flushes the cached charge; a reuse merges
via `max`; `none` models a `KeyError` in the partition map or the failed
`assert ctrl_pq in latency_cache`. -/
def v3Loop (pq_to_ctrl : List (ℕ × ℕ)) (dt_inner dt_inter : ℚ) :
    List CifOcc → List (ℕ × ℚ) → CtrlLatencyResult →
    Option (CtrlLatencyResult × List (ℕ × ℚ))
  | [], cache, acc => some (acc, cache)
  | o :: rest, cache, acc =>
    match dlookup o.targ pq_to_ctrl, dlookup o.ctrl pq_to_ctrl with
    | some ct, some cc =>
      if o.state then
        let acc' := match dlookup o.ctrl cache with
          | some cached_latency =>
            if isclose cached_latency dt_inner then addInner dt_inner acc
            else addInter dt_inter acc
          | none => acc
        v3Loop pq_to_ctrl dt_inner dt_inter rest
          (dinsert o.ctrl (if ct = cc then dt_inner else dt_inter) cache) acc'
      else
        match dlookup o.ctrl cache with
        | none => none
        | some cached_latency =>
          v3Loop pq_to_ctrl dt_inner dt_inter rest
            (dinsert o.ctrl
              (max cached_latency (if ct = cc then dt_inner else dt_inter)) cache)
            acc
    | _, _ => none

/-- The final pass of `EvalV3.calc_ctrl_latency`: charge each cached source
exactly once, classifying by `isclose` against `dt_inner`. -/
def chargeCache (dt_inner dt_inter : ℚ) :
    List (ℕ × ℚ) → CtrlLatencyResult → CtrlLatencyResult
  | [], acc => acc
  | e :: rest, acc =>
    chargeCache dt_inner dt_inter rest
      (if isclose e.2 dt_inner then addInner dt_inner acc else addInter dt_inter acc)

/-- `EvalV3.calc_ctrl_latency` (evaluator.py 274–348). -/
def calc_ctrl_latency_v3 (pq_to_ctrl : List (ℕ × ℕ)) (dt_inner dt_inter : ℚ)
    (pairs : List CifOcc) : Option CtrlLatencyResult :=
  match v3Loop pq_to_ctrl dt_inner dt_inter pairs [] ⟨0, 0, 0, 0⟩ with
  | some (acc, cache) => some (chargeCache dt_inner dt_inter cache acc)
  | none => none

/-- Whether an occurrence is inter-controller under the partition map. -/
def occInter (pq_to_ctrl : List (ℕ × ℕ)) (o : CifOcc) : Bool :=
  ! decide (dlookup o.targ pq_to_ctrl = dlookup o.ctrl pq_to_ctrl)

/-- The latency class the loop assigns to one occurrence. -/
def occDt (pq_to_ctrl : List (ℕ × ℕ)) (dt_inner dt_inter : ℚ) (o : CifOcc) : ℚ :=
  if dlookup o.targ pq_to_ctrl = dlookup o.ctrl pq_to_ctrl then dt_inner else dt_inter

/-- The distinct condition-source qubits, in first-use order. -/
def ctrlSources (pairs : List CifOcc) : List ℕ :=
  firstDedup (pairs.map CifOcc.ctrl)

/-- A source is inter-class when any of its occurrences is inter-controller
(the worse class over all occurrences). -/
def sourceInter (pq_to_ctrl : List (ℕ × ℕ)) (pairs : List CifOcc) (q : ℕ) : Bool :=
  pairs.any (fun o => decide (o.ctrl = q) && occInter pq_to_ctrl o)

/-- `state` flags are consistent with first use: an occurrence is flagged
`True` exactly when its source qubit has not appeared before (relative to
the already-`seen` sources). -/
def firstUseOk : List CifOcc → List ℕ → Bool
  | [], _ => true
  | o :: rest, seen =>
    (o.state == decide (o.ctrl ∉ seen)) && firstUseOk rest (o.ctrl :: seen)

/-! ### More association-list and dedup lemmas -/

theorem dlookup_isSome_iff_mem [DecidableEq κ] (k : κ) (m : List (κ × α)) :
    (dlookup k m).isSome = true ↔ k ∈ dkeys m := by
  induction m with
  | nil => simp [dlookup, dkeys]
  | cons e rest ih =>
    obtain ⟨ek, ev⟩ := e
    by_cases h : k = ek
    · subst h; simp [dlookup, dkeys]
    · simp [dlookup, dkeys, h, ih]

theorem dkeys_dinsert_mem [DecidableEq κ] (k : κ) (v : α) (m : List (κ × α)) :
    k ∈ dkeys m → dkeys (dinsert k v m) = dkeys m := by
  induction m with
  | nil => intro h; cases h
  | cons e rest ih =>
    obtain ⟨ek, ev⟩ := e
    intro h
    by_cases hk : k = ek
    · subst hk; simp [dinsert, dkeys]
    · have h' : k ∈ dkeys rest := by
        rcases List.mem_cons.mp h with h2 | h2
        · exact absurd h2 hk
        · exact h2
      have hrec := ih h'
      simp only [dinsert, if_neg hk, dkeys, List.map_cons] at hrec ⊢
      rw [hrec]

theorem mem_dlookup_of_nodup [DecidableEq κ] (m : List (κ × α))
    (hnd : (dkeys m).Nodup) : ∀ e ∈ m, dlookup e.1 m = some e.2 := by
  induction m with
  | nil => simp
  | cons f rest ih =>
    obtain ⟨fk, fv⟩ := f
    intro e he
    rcases List.mem_cons.mp he with h | h
    · subst h; simp [dlookup]
    · have hk : e.1 ≠ fk := by
        intro hek
        have : fk ∈ dkeys rest := by
          rw [← hek]
          exact List.mem_map.mpr ⟨e, h, rfl⟩
        exact (List.nodup_cons.mp hnd).1 this
      rw [dlookup, if_neg hk]
      exact ih (List.nodup_cons.mp hnd).2 e h

theorem firstDedup_subset : ∀ (l : List ℕ), ∀ x ∈ firstDedup l, x ∈ l := by
  intro l
  induction l using firstDedup.induct with
  | case1 => simp [firstDedup]
  | case2 a t ih =>
    intro x hx
    rw [firstDedup] at hx
    rcases List.mem_cons.mp hx with h | h
    · simp [h]
    · exact List.mem_cons_of_mem _ (List.mem_of_mem_filter (ih x h))

theorem firstDedup_nodup : ∀ (l : List ℕ), (firstDedup l).Nodup := by
  intro l
  induction l using firstDedup.induct with
  | case1 => simp [firstDedup]
  | case2 a t ih =>
    rw [firstDedup]
    refine List.nodup_cons.mpr ⟨fun hmem => ?_, ih⟩
    have := List.of_mem_filter (firstDedup_subset _ _ hmem)
    simp at this

theorem firstDedup_filter (a : ℕ) : ∀ (n : ℕ) (l : List ℕ), l.length ≤ n →
    firstDedup (l.filter (fun x => x ≠ a)) =
      (firstDedup l).filter (fun x => x ≠ a) := by
  intro n
  induction n with
  | zero =>
    intro l hl
    rw [List.eq_nil_of_length_eq_zero (Nat.le_zero.mp hl)]
    simp [firstDedup]
  | succ n ih =>
    intro l hl
    match l with
    | [] => simp [firstDedup]
    | b :: t =>
      have ht : t.length ≤ n := by simp at hl; omega
      by_cases hba : b = a
      · subst hba
        rw [List.filter_cons_of_neg (by simp)]
        rw [firstDedup, List.filter_cons_of_neg (by simp)]
        symm
        rw [List.filter_eq_self]
        intro x hx
        have := List.of_mem_filter (firstDedup_subset _ _ hx)
        simpa using this
      · rw [List.filter_cons_of_pos (by simp [hba]), firstDedup, firstDedup,
          List.filter_cons_of_pos (by simp [hba])]
        congr 1
        have hcomm : (t.filter (fun x => x ≠ a)).filter (fun x => x ≠ b) =
            (t.filter (fun x => x ≠ b)).filter (fun x => x ≠ a) := by
          rw [List.filter_filter, List.filter_filter]
          exact List.filter_congr (fun x _ => by rw [Bool.and_comm])
        rw [hcomm]
        exact ih (t.filter (fun x => x ≠ b))
          (le_trans (List.length_filter_le _ _) ht)

theorem countP_congr_local (l : List (ℕ × ℚ)) (p q : ℕ × ℚ → Bool)
    (h : ∀ x ∈ l, p x = q x) : l.countP p = l.countP q := by
  induction l with
  | nil => rfl
  | cons a t ih =>
    rw [List.countP_cons, List.countP_cons, h a (List.mem_cons_self ..),
      ih (fun x hx => h x (List.mem_cons_of_mem _ hx))]

/-- Pure description of the cache evolution under the first-use discipline:
each occurrence merges its class into its source's entry via `max`
(inserting on first sight). -/
def cacheFold (pq_to_ctrl : List (ℕ × ℕ)) (dt_inner dt_inter : ℚ) :
    List CifOcc → List (ℕ × ℚ) → List (ℕ × ℚ)
  | [], cache => cache
  | o :: rest, cache =>
    cacheFold pq_to_ctrl dt_inner dt_inter rest
      (match dlookup o.ctrl cache with
       | some cached =>
         dinsert o.ctrl (max cached (occDt pq_to_ctrl dt_inner dt_inter o)) cache
       | none => dinsert o.ctrl (occDt pq_to_ctrl dt_inner dt_inter o) cache)

/-- The worst class of `q`-occurrences in `pairs`, merged onto `v`. -/
def worstFrom (pq_to_ctrl : List (ℕ × ℕ)) (dt_inner dt_inter : ℚ) (q : ℕ) :
    List CifOcc → ℚ → ℚ
  | [], v => v
  | o :: rest, v =>
    worstFrom pq_to_ctrl dt_inner dt_inter q rest
      (if o.ctrl = q then max v (occDt pq_to_ctrl dt_inner dt_inter o) else v)

/-- The value `q` ends with in the cache when starting absent: the worst
class over its occurrences, seeded by the first one. -/
def firstWorst (pq_to_ctrl : List (ℕ × ℕ)) (dt_inner dt_inter : ℚ) (q : ℕ) :
    List CifOcc → Option ℚ
  | [] => none
  | o :: rest =>
    if o.ctrl = q then
      some (worstFrom pq_to_ctrl dt_inner dt_inter q rest
        (occDt pq_to_ctrl dt_inner dt_inter o))
    else firstWorst pq_to_ctrl dt_inner dt_inter q rest

theorem firstUseOk_congr (pairs : List CifOcc) : ∀ (s1 s2 : List ℕ),
    (∀ x, x ∈ s1 ↔ x ∈ s2) → firstUseOk pairs s1 = firstUseOk pairs s2 := by
  induction pairs with
  | nil => intro _ _ _; rfl
  | cons o rest ih =>
    intro s1 s2 h
    rw [firstUseOk, firstUseOk]
    have h1 : decide (o.ctrl ∉ s1) = decide (o.ctrl ∉ s2) := by
      simp only [decide_not]
      rw [decide_eq_decide.mpr (h o.ctrl)]
    rw [h1, ih (o.ctrl :: s1) (o.ctrl :: s2)
      (fun x => by simp only [List.mem_cons]; rw [or_congr_right (h x)])]

/-- Under the first-use discipline (relative to the cached sources) and
with all endpoints in the partition map, the loop never charges anything:
it returns the untouched accumulators and the `cacheFold` cache. -/
theorem v3Loop_eq_cacheFold (pq_to_ctrl : List (ℕ × ℕ)) (dt_inner dt_inter : ℚ)
    (pairs : List CifOcc) :
    ∀ (cache : List (ℕ × ℚ)) (acc : CtrlLatencyResult),
      (∀ o ∈ pairs, (dlookup o.targ pq_to_ctrl).isSome = true ∧
        (dlookup o.ctrl pq_to_ctrl).isSome = true) →
      firstUseOk pairs (dkeys cache) = true →
      v3Loop pq_to_ctrl dt_inner dt_inter pairs cache acc =
        some (acc, cacheFold pq_to_ctrl dt_inner dt_inter pairs cache) := by
  induction pairs with
  | nil => intro cache acc _ _; rfl
  | cons o rest ih =>
    intro cache acc hmem hwf
    obtain ⟨hm1, hm2⟩ := hmem o (List.mem_cons_self ..)
    obtain ⟨ct, hct⟩ := Option.isSome_iff_exists.mp hm1
    obtain ⟨cc, hcc⟩ := Option.isSome_iff_exists.mp hm2
    rw [firstUseOk, Bool.and_eq_true] at hwf
    obtain ⟨hstate, hwf_rest⟩ := hwf
    have hocc : (if ct = cc then dt_inner else dt_inter) =
        occDt pq_to_ctrl dt_inner dt_inter o := by
      unfold occDt
      rw [hct, hcc]
      by_cases h : ct = cc
      · simp [h]
      · simp [h, fun hh => h (Option.some.inj hh)]
    have hstate' : o.state = decide (o.ctrl ∉ dkeys cache) := beq_iff_eq.mp hstate
    rw [v3Loop, cacheFold, hct, hcc]
    cases hos : o.state with
    | true =>
      have hnotin : o.ctrl ∉ dkeys cache :=
        of_decide_eq_true (hos ▸ hstate').symm
      have hlook : dlookup o.ctrl cache = none :=
        dlookup_eq_none_of_not_mem _ _ hnotin
      simp only [if_true, hlook, hocc]
      have hkeys : dkeys (dinsert o.ctrl (occDt pq_to_ctrl dt_inner dt_inter o) cache) =
          dkeys cache ++ [o.ctrl] := by
        rw [dinsert_of_not_mem _ _ _ hnotin]
        simp [dkeys]
      refine ih _ acc (fun q hq => hmem q (List.mem_cons_of_mem _ hq)) ?_
      rw [hkeys]
      rw [firstUseOk_congr rest _ (o.ctrl :: dkeys cache)
        (fun x => by simp [List.mem_append, List.mem_cons, or_comm])]
      exact hwf_rest
    | false =>
      have hin : o.ctrl ∈ dkeys cache := by
        by_contra hno
        have : decide (o.ctrl ∉ dkeys cache) = true := decide_eq_true hno
        rw [← hstate', hos] at this
        cases this
      obtain ⟨cached, hlook⟩ := Option.isSome_iff_exists.mp
        ((dlookup_isSome_iff_mem o.ctrl cache).mpr hin)
      simp only [Bool.false_eq_true, if_false, hlook, hocc]
      have hkeys : dkeys (dinsert o.ctrl
          (max cached (occDt pq_to_ctrl dt_inner dt_inter o)) cache) = dkeys cache :=
        dkeys_dinsert_mem _ _ _ hin
      refine ih _ acc (fun q hq => hmem q (List.mem_cons_of_mem _ hq)) ?_
      rw [hkeys]
      rw [firstUseOk_congr rest _ (o.ctrl :: dkeys cache)
        (fun x => ⟨fun hx => List.mem_cons_of_mem _ hx,
          fun hx => by
            rcases List.mem_cons.mp hx with h2 | h2
            · exact h2 ▸ hin
            · exact h2⟩)]
      exact hwf_rest

theorem cacheFold_lookup (pq_to_ctrl : List (ℕ × ℕ)) (dt_inner dt_inter : ℚ)
    (pairs : List CifOcc) :
    ∀ (cache : List (ℕ × ℚ)) (q : ℕ),
      dlookup q (cacheFold pq_to_ctrl dt_inner dt_inter pairs cache) =
        match dlookup q cache with
        | some v => some (worstFrom pq_to_ctrl dt_inner dt_inter q pairs v)
        | none => firstWorst pq_to_ctrl dt_inner dt_inter q pairs := by
  induction pairs with
  | nil =>
    intro cache q
    cases h : dlookup q cache <;> simp [cacheFold, worstFrom, firstWorst, h]
  | cons o rest ih =>
    intro cache q
    rw [cacheFold]
    by_cases hq : o.ctrl = q
    · subst hq
      cases h0 : dlookup o.ctrl cache with
      | some c0 => rw [ih]; simp [dlookup_dinsert, worstFrom]
      | none => rw [ih]; simp [dlookup_dinsert, worstFrom, firstWorst]
    · have hq' : q ≠ o.ctrl := fun h => hq h.symm
      cases h0 : dlookup o.ctrl cache with
      | some c0 =>
        rw [ih]
        cases h1 : dlookup q cache with
        | some v => simp [dlookup_dinsert, hq', h1, worstFrom, hq]
        | none => simp [dlookup_dinsert, hq', h1, firstWorst, hq]
      | none =>
        rw [ih]
        cases h1 : dlookup q cache with
        | some v => simp [dlookup_dinsert, hq', h1, worstFrom, hq]
        | none => simp [dlookup_dinsert, hq', h1, firstWorst, hq]

theorem cacheFold_keys (pq_to_ctrl : List (ℕ × ℕ)) (dt_inner dt_inter : ℚ)
    (pairs : List CifOcc) :
    ∀ (cache : List (ℕ × ℚ)),
      dkeys (cacheFold pq_to_ctrl dt_inner dt_inter pairs cache) =
        dkeys cache ++ (firstDedup (pairs.map CifOcc.ctrl)).filter
          (fun x => decide (x ∉ dkeys cache)) := by
  induction pairs with
  | nil => intro cache; simp [cacheFold, firstDedup]
  | cons o rest ih =>
    intro cache
    rw [cacheFold, List.map_cons, firstDedup]
    cases h0 : dlookup o.ctrl cache with
    | some c0 =>
      have hin : o.ctrl ∈ dkeys cache :=
        (dlookup_isSome_iff_mem o.ctrl cache).mp (by rw [h0]; rfl)
      rw [ih, dkeys_dinsert_mem _ _ _ hin]
      congr 1
      rw [List.filter_cons_of_neg (by simp [hin]),
        firstDedup_filter o.ctrl (rest.map CifOcc.ctrl).length _ le_rfl,
        List.filter_filter]
      apply List.filter_congr
      intro x _
      by_cases hx : x = o.ctrl
      · subst hx; simp [hin]
      · simp [hx]
    | none =>
      have hnotin : o.ctrl ∉ dkeys cache := by
        intro hmem
        have := (dlookup_isSome_iff_mem o.ctrl cache).mpr hmem
        rw [h0] at this
        cases this
      have hkeys : dkeys (dinsert o.ctrl (occDt pq_to_ctrl dt_inner dt_inter o) cache) =
          dkeys cache ++ [o.ctrl] := by
        rw [dinsert_of_not_mem _ _ _ hnotin]; simp [dkeys]
      rw [ih, hkeys, List.filter_cons_of_pos (by simp [hnotin]),
        firstDedup_filter o.ctrl (rest.map CifOcc.ctrl).length _ le_rfl,
        List.filter_filter, List.append_assoc, List.singleton_append]
      congr 2
      apply List.filter_congr
      intro x _
      by_cases hx : x = o.ctrl
      · subst hx; simp
      · simp [hx]

theorem isclose_self (a : ℚ) : isclose a a = true := by
  unfold isclose
  rw [decide_eq_true_eq]
  simp only [sub_self, abs_zero, max_self]
  positivity

theorem occDt_eq_class (pq_to_ctrl : List (ℕ × ℕ)) (dt_inner dt_inter : ℚ)
    (o : CifOcc) :
    occDt pq_to_ctrl dt_inner dt_inter o =
      if occInter pq_to_ctrl o then dt_inter else dt_inner := by
  unfold occDt occInter
  by_cases h : dlookup o.targ pq_to_ctrl = dlookup o.ctrl pq_to_ctrl <;> simp [h]

theorem worstFrom_class (pq_to_ctrl : List (ℕ × ℕ)) (dt_inner dt_inter : ℚ)
    (hle : dt_inner ≤ dt_inter) (q : ℕ) :
    ∀ (pairs : List CifOcc) (b : Bool),
      worstFrom pq_to_ctrl dt_inner dt_inter q pairs
          (if b then dt_inter else dt_inner) =
        if b || sourceInter pq_to_ctrl pairs q then dt_inter else dt_inner := by
  intro pairs
  induction pairs with
  | nil => intro b; simp [worstFrom, sourceInter]
  | cons o rest ih =>
    intro b
    rw [worstFrom]
    by_cases ho : o.ctrl = q
    · rw [if_pos ho]
      have hmax : max (if b then dt_inter else dt_inner)
          (occDt pq_to_ctrl dt_inner dt_inter o) =
          if b || occInter pq_to_ctrl o then dt_inter else dt_inner := by
        rw [occDt_eq_class]
        cases b <;> cases hoi : occInter pq_to_ctrl o <;>
          simp [max_self, max_eq_right hle, max_eq_left hle]
      rw [hmax, ih (b || occInter pq_to_ctrl o)]
      simp [sourceInter, ho, Bool.or_assoc]
    · rw [if_neg ho, ih b]
      simp [sourceInter, ho]

theorem firstWorst_eq_class (pq_to_ctrl : List (ℕ × ℕ)) (dt_inner dt_inter : ℚ)
    (hle : dt_inner ≤ dt_inter) (q : ℕ) :
    ∀ pairs : List CifOcc, q ∈ pairs.map CifOcc.ctrl →
      firstWorst pq_to_ctrl dt_inner dt_inter q pairs =
        some (if sourceInter pq_to_ctrl pairs q then dt_inter else dt_inner) := by
  intro pairs
  induction pairs with
  | nil => simp
  | cons o rest ih =>
    intro hq
    rw [firstWorst]
    by_cases ho : o.ctrl = q
    · rw [if_pos ho, occDt_eq_class,
        worstFrom_class pq_to_ctrl dt_inner dt_inter hle q rest (occInter pq_to_ctrl o)]
      simp [sourceInter, ho]
    · rw [if_neg ho]
      have hq' : q ∈ rest.map CifOcc.ctrl := by
        rw [List.map_cons] at hq
        rcases List.mem_cons.mp hq with h | h
        · exact absurd h.symm ho
        · exact h
      rw [ih hq']
      simp [sourceInter, ho]

theorem chargeCache_split (dt_inner dt_inter : ℚ) :
    ∀ (cache : List (ℕ × ℚ)) (acc : CtrlLatencyResult),
      chargeCache dt_inner dt_inter cache acc =
        ⟨acc.ctrl_latency +
            (cache.map (fun e => if isclose e.2 dt_inner then dt_inner else dt_inter)).sum,
          acc.inner_latency +
            (cache.countP (fun e => isclose e.2 dt_inner) : ℚ) * dt_inner,
          acc.inter_latency +
            (cache.countP (fun e => ! isclose e.2 dt_inner) : ℚ) * dt_inter,
          acc.num_inter_cif + cache.countP (fun e => ! isclose e.2 dt_inner)⟩ := by
  intro cache
  induction cache with
  | nil => intro acc; simp [chargeCache]
  | cons e t ih =>
    intro acc
    rw [chargeCache]
    by_cases hcl : isclose e.2 dt_inner
    · rw [if_pos hcl, ih]
      simp only [addInner, List.map_cons, List.sum_cons, List.countP_cons, hcl,
        if_true, Bool.not_true, Bool.false_eq_true, if_false]
      refine CtrlLatencyResult.mk.injEq .. ▸ ?_
      push_cast
      refine ⟨by ring, by ring, by ring, by ring⟩
    · rw [if_neg hcl, ih]
      have hcl' : isclose e.2 dt_inner = false := by
        cases h : isclose e.2 dt_inner
        · rfl
        · exact absurd h hcl
      simp only [addInter, List.map_cons, List.sum_cons, List.countP_cons, hcl',
        Bool.false_eq_true, if_false, Bool.not_false, if_true]
      refine CtrlLatencyResult.mk.injEq .. ▸ ?_
      push_cast
      refine ⟨by ring, by ring, by ring, by ring⟩

/-! ## Claim C3: deduplicated charging in `EvalV3.calc_ctrl_latency` -/

/-- C3: with first-use flags consistent with the occurrence order (one
first use per source, then reuses), all endpoints in the partition map, and
distinguishable latencies (`dt_inner ≤ dt_inter`, not `isclose`),
`EvalV3.calc_ctrl_latency` charges every condition-source qubit exactly
once, at the worse class over all its occurrences (inter beats inner);
reuse occurrences add nothing when processed.  The totals are sums over the
distinct sources, with matching inner/inter subtotals and inter count. -/
theorem calc_ctrl_latency_v3_dedup (pq_to_ctrl : List (ℕ × ℕ))
    (dt_inner dt_inter : ℚ) (pairs : List CifOcc)
    (hmem : ∀ o ∈ pairs, (dlookup o.targ pq_to_ctrl).isSome = true ∧
        (dlookup o.ctrl pq_to_ctrl).isSome = true)
    (hwf : firstUseOk pairs [] = true)
    (hle : dt_inner ≤ dt_inter)
    (hfar : isclose dt_inter dt_inner = false) :
    calc_ctrl_latency_v3 pq_to_ctrl dt_inner dt_inter pairs =
      some ⟨((ctrlSources pairs).map (fun q =>
                if sourceInter pq_to_ctrl pairs q then dt_inter else dt_inner)).sum,
            ((ctrlSources pairs).countP
                (fun q => ! sourceInter pq_to_ctrl pairs q) : ℚ) * dt_inner,
            ((ctrlSources pairs).countP
                (fun q => sourceInter pq_to_ctrl pairs q) : ℚ) * dt_inter,
            (ctrlSources pairs).countP (fun q => sourceInter pq_to_ctrl pairs q)⟩ := by
  unfold calc_ctrl_latency_v3
  rw [v3Loop_eq_cacheFold pq_to_ctrl dt_inner dt_inter pairs [] ⟨0,0,0,0⟩ hmem
    (by simpa [dkeys] using hwf)]
  dsimp only
  rw [chargeCache_split]
  have hkeys : dkeys (cacheFold pq_to_ctrl dt_inner dt_inter pairs []) =
      ctrlSources pairs := by
    rw [cacheFold_keys]
    simp [dkeys, ctrlSources]
  have hnd : (dkeys (cacheFold pq_to_ctrl dt_inner dt_inter pairs [])).Nodup := by
    rw [hkeys]; exact firstDedup_nodup _
  have hval : ∀ e ∈ cacheFold pq_to_ctrl dt_inner dt_inter pairs [],
      e.2 = if sourceInter pq_to_ctrl pairs e.1 then dt_inter else dt_inner := by
    intro e he
    have hlk : firstWorst pq_to_ctrl dt_inner dt_inter e.1 pairs = some e.2 := by
      have := mem_dlookup_of_nodup _ hnd e he
      rw [cacheFold_lookup] at this
      exact this
    have he1 : e.1 ∈ pairs.map CifOcc.ctrl := by
      have hmem1 : e.1 ∈ dkeys (cacheFold pq_to_ctrl dt_inner dt_inter pairs []) :=
        List.mem_map.mpr ⟨e, he, rfl⟩
      rw [hkeys] at hmem1
      exact firstDedup_subset _ _ hmem1
    rw [firstWorst_eq_class pq_to_ctrl dt_inner dt_inter hle e.1 pairs he1] at hlk
    exact (Option.some.inj hlk).symm
  have hmap : (cacheFold pq_to_ctrl dt_inner dt_inter pairs []).map
        (fun e => if isclose e.2 dt_inner then dt_inner else dt_inter) =
      (ctrlSources pairs).map
        (fun q => if sourceInter pq_to_ctrl pairs q then dt_inter else dt_inner) := by
    rw [← hkeys, dkeys, List.map_map]
    apply List.map_congr_left
    intro e he
    rw [hval e he]
    by_cases hs : sourceInter pq_to_ctrl pairs e.1 <;>
      simp [hs, hfar, isclose_self, Function.comp]
  have hcntT : (cacheFold pq_to_ctrl dt_inner dt_inter pairs []).countP
        (fun e => ! isclose e.2 dt_inner) =
      (ctrlSources pairs).countP (fun q => sourceInter pq_to_ctrl pairs q) := by
    rw [← hkeys, dkeys, List.countP_map]
    apply countP_congr_local
    intro e he
    rw [hval e he]
    by_cases hs : sourceInter pq_to_ctrl pairs e.1 <;>
      simp [hs, hfar, isclose_self, Function.comp]
  have hcntI : (cacheFold pq_to_ctrl dt_inner dt_inter pairs []).countP
        (fun e => isclose e.2 dt_inner) =
      (ctrlSources pairs).countP (fun q => ! sourceInter pq_to_ctrl pairs q) := by
    rw [← hkeys, dkeys, List.countP_map]
    apply countP_congr_local
    intro e he
    rw [hval e he]
    by_cases hs : sourceInter pq_to_ctrl pairs e.1 <;>
      simp [hs, hfar, isclose_self, Function.comp]
  rw [hmap, hcntT, hcntI]
  simp

/-- Witness for C3: source qubit 0 is used first by an inner-controller
pair `(1,0)` and reused by an inter-controller pair `(2,0)`; it is charged
exactly once, at the worse (inter) class: total `5e-7`, not
`5e-8 + 5e-7`. -/
theorem calc_ctrl_latency_v3_dedup_witness :
    calc_ctrl_latency_v3 [(0,0),(1,0),(2,1)] (5/100000000) (5/10000000)
        [⟨1,0,true⟩, ⟨2,0,false⟩] =
      some ⟨5/10000000, 0, 5/10000000, 1⟩ := by
  have hfar : isclose (5/10000000 : ℚ) (5/100000000) = false := by
    simp only [isclose, decide_eq_false_iff_not, not_le]
    rw [abs_of_pos (by norm_num : (0:ℚ) < 5/10000000 - 5/100000000),
      abs_of_pos (by norm_num : (0:ℚ) < (5:ℚ)/10000000),
      abs_of_pos (by norm_num : (0:ℚ) < (5:ℚ)/100000000),
      max_eq_left (by norm_num : (5:ℚ)/100000000 ≤ 5/10000000)]
    norm_num
  rw [calc_ctrl_latency_v3_dedup [(0,0),(1,0),(2,1)] (5/100000000) (5/10000000)
    [⟨1,0,true⟩, ⟨2,0,false⟩] (by decide) (by decide) (by norm_num) hfar]
  simp only [ctrlSources, List.map_cons, List.map_nil, firstDedup]
  norm_num [sourceInter, occInter, dlookup, firstDedup]

/-! ### KL-style refinement pass, `HeuristicMapper.optimize_mapping`
(heuristic_graphpartition_mapper.py 114–164) -/

/-- One recorded move of the refinement loop
(`all_moves.append((qubit, mapping[qubit], new_pq, exchange_qubit))`). -/
structure MoveRec where
  qubit : ℕ
  old_pq : ℕ
  new_pq : ℕ
  exch : Option ℕ
deriving DecidableEq, Repr

/-- Replaying one recorded move: `mapping[qubit] = new_pq` and, for a swap,
`mapping[exchange_qubit] = old_pq` — the body of both `apply_move` (on the
working copy) and the commit loop (on the fresh copy). -/
def applyRecMove (mapping : List ℕ) (mv : MoveRec) : List ℕ :=
  let m1 := mapping.set mv.qubit mv.new_pq
  match mv.exch with
  | none => m1
  | some e => m1.set e mv.old_pq

/-- Validity of the exchange partner: present in `unmoved`, distinct from
the moved qubit, and a legal index (otherwise Python raises). -/
def exchOk (unmoved : List ℕ) (mlen q : ℕ) : Option ℕ → Bool
  | none => true
  | some e => decide (e ∈ unmoved) && decide (e ≠ q) && decide (e < mlen)

/-- The `while unmoved` loop of `optimize_mapping`, abstracted over
`find_best_move` and `calculate_total_gain`: `pick` maps the current
working mapping and unmoved list to `none` (loop break) or the chosen
`(qubit, new_pq, exchange_qubit, gain)`.  The selection depends on the gain
caches, Python set iteration order and `random.choice`, all of which the
oracle absorbs; every possible execution of the Python loop is one `pick`.
The guard encodes the member/index accesses that would otherwise raise;
fuel bounds the loop (each iteration shrinks `unmoved`). -/
def optLoop (pick : List ℕ → List ℕ → Option (ℕ × ℕ × Option ℕ × ℤ)) :
    ℕ → List ℕ → List ℕ → Option (List MoveRec × List ℤ)
  | 0, _, unmoved => if unmoved = [] then some ([], []) else none
  | fuel + 1, mapping, unmoved =>
    if unmoved = [] then some ([], [])
    else
      match pick mapping unmoved with
      | none => some ([], [])
      | some (q, new_pq, exch, gain) =>
        if decide (q ∈ unmoved) && decide (q < mapping.length) &&
            exchOk unmoved mapping.length q exch then
          let mv : MoveRec := ⟨q, mapping.getD q 0, new_pq, exch⟩
          let unmoved' := match exch with
            | none => unmoved.erase q
            | some e => (unmoved.erase q).erase e
          match optLoop pick fuel (applyRecMove mapping mv) unmoved' with
          | some (mvs, gains) => some (mv :: mvs, gain :: gains)
          | none => none
        else none

/-- The commit-index loop of `optimize_mapping` (lines 145–152): track the
running cumulative gain and remember `i + 1` whenever it strictly exceeds
the best cumulative gain seen so far (which starts at 0). -/
def maxPrefixAux : List ℤ → ℤ → ℕ → ℤ → ℕ → ℕ
  | [], _, max_i, _, _ => max_i
  | gain :: gains, max_cum, max_i, cum, i =>
    let cum' := cum + gain
    if max_cum < cum' then maxPrefixAux gains cum' (i + 1) cum' (i + 1)
    else maxPrefixAux gains max_cum max_i cum' (i + 1)

/-- `max_i` as computed by `optimize_mapping`: the first index whose
cumulative gain attains the positive maximum, 0 when no prefix is
positive. -/
def maxPrefixIndex (gains : List ℤ) : ℕ := maxPrefixAux gains 0 0 0 0

/-- `HeuristicMapper.optimize_mapping` (114–164), with move selection
abstracted by `pick`: run the recording loop, then rebuild from the input
mapping by replaying only the first `max_i` recorded moves. -/
def optimize_mapping (pick : List ℕ → List ℕ → Option (ℕ × ℕ × Option ℕ × ℤ))
    (n_logical : ℕ) (initial_mapping : List ℕ) : Option (List ℕ) :=
  match optLoop pick n_logical initial_mapping (List.range n_logical) with
  | none => none
  | some (all_moves, gains) =>
    let max_i := maxPrefixIndex gains
    if 0 < max_i then
      some (List.foldl applyRecMove initial_mapping (all_moves.take max_i))
    else some initial_mapping

/-- When no prefix improves on `max_cum`, the commit loop keeps `max_i`. -/
theorem maxPrefixAux_stay : ∀ (gains : List ℤ) (max_cum : ℤ) (max_i : ℕ) (cum : ℤ) (i : ℕ),
    cum ≤ max_cum →
    (∀ j ≤ gains.length, cum + (gains.take j).sum ≤ max_cum) →
    maxPrefixAux gains max_cum max_i cum i = max_i := by
  intro gains
  induction gains with
  | nil => intro _ max_i _ _ _ _; rfl
  | cons g gains ih =>
    intro max_cum max_i cum i hc hall
    rw [maxPrefixAux]
    have h1 : cum + g ≤ max_cum := by
      have := hall 1 (by simp)
      simpa using this
    rw [if_neg (not_lt.mpr h1)]
    refine ih max_cum max_i (cum + g) (i + 1) h1 (fun j hj => ?_)
    have := hall (j + 1) (by simpa using Nat.succ_le_succ hj)
    rw [List.take_succ_cons, List.sum_cons] at this
    calc cum + g + (gains.take j).sum = cum + (g + (gains.take j).sum) := by ring
      _ ≤ max_cum := this

/-- When some prefix improves on `max_cum`, the commit loop returns the
first index attaining the maximum cumulative gain, which beats every
prefix. -/
theorem maxPrefixAux_best : ∀ (gains : List ℤ) (max_cum : ℤ) (max_i : ℕ) (cum : ℤ) (i : ℕ),
    cum ≤ max_cum →
    (∃ j, j ≤ gains.length ∧ max_cum < cum + (gains.take j).sum) →
    ∃ j, j ≤ gains.length ∧ 1 ≤ j ∧
      maxPrefixAux gains max_cum max_i cum i = i + j ∧
      max_cum < cum + (gains.take j).sum ∧
      ∀ j' ≤ gains.length, cum + (gains.take j').sum ≤ cum + (gains.take j).sum := by
  intro gains
  induction gains with
  | nil =>
    intro max_cum max_i cum i hc hex
    obtain ⟨j, hj, hlt⟩ := hex
    have hj0 : j = 0 := by simpa using hj
    subst hj0
    simp at hlt
    exact absurd hlt (not_lt.mpr hc)
  | cons g gains ih =>
    intro max_cum max_i cum i hc hex
    rw [maxPrefixAux]
    by_cases hbr : max_cum < cum + g
    · rw [if_pos hbr]
      by_cases hex2 : ∃ j, j ≤ gains.length ∧ cum + g < (cum + g) + (gains.take j).sum
      · obtain ⟨j2, hj2, h1j2, hres, hlt2, hmax2⟩ :=
          ih (cum + g) (i + 1) (cum + g) (i + 1) le_rfl hex2
        refine ⟨j2 + 1, by simpa using Nat.succ_le_succ hj2, Nat.le_add_left 1 j2,
          ?_, ?_, ?_⟩
        · rw [hres]; omega
        · rw [List.take_succ_cons, List.sum_cons]
          have : (0:ℤ) < (gains.take j2).sum := by linarith
          have h2 : cum + (g + (gains.take j2).sum) = cum + g + (gains.take j2).sum := by
            ring
          rw [h2]
          linarith
        · intro j' hj'
          match j' with
          | 0 =>
            simp only [List.take_zero, List.sum_nil, add_zero,
              List.take_succ_cons, List.sum_cons]
            have : (0:ℤ) < (gains.take j2).sum := by linarith
            linarith
          | k + 1 =>
            rw [List.take_succ_cons, List.sum_cons, List.take_succ_cons, List.sum_cons]
            have hk : k ≤ gains.length := by simpa using Nat.succ_le_succ_iff.mp hj'
            have := hmax2 k hk
            linarith
      · push_neg at hex2
        have hres := maxPrefixAux_stay gains (cum + g) (i + 1) (cum + g) (i + 1)
          le_rfl (fun j hj => hex2 j hj)
        refine ⟨1, by simp, le_rfl, by rw [hres], ?_, ?_⟩
        · simpa using hbr
        · intro j' hj'
          match j' with
          | 0 =>
            simp only [List.take_zero, List.sum_nil, add_zero, List.take_succ_cons,
              List.sum_cons]
            have h1 : (gains.take 0).sum = 0 := by simp
            linarith
          | k + 1 =>
            rw [List.take_succ_cons, List.sum_cons, List.take_succ_cons, List.sum_cons]
            have hk : k ≤ gains.length := by simpa using Nat.succ_le_succ_iff.mp hj'
            have := hex2 k hk
            have h0 : ((gains.take 0).sum : ℤ) = 0 := by simp
            linarith
    · rw [if_neg hbr]
      push_neg at hbr
      obtain ⟨j, hj, hlt⟩ := hex
      have hj1 : 1 ≤ j := by
        by_contra hj0
        interval_cases j
        simp at hlt
        exact absurd hlt (not_lt.mpr hc)
      obtain ⟨k, rfl⟩ : ∃ k, j = k + 1 := ⟨j - 1, by omega⟩
      rw [List.take_succ_cons, List.sum_cons] at hlt
      have hex2 : ∃ k', k' ≤ gains.length ∧ max_cum < (cum + g) + (gains.take k').sum := by
        refine ⟨k, by simpa using Nat.succ_le_succ_iff.mp hj, ?_⟩
        calc max_cum < cum + (g + (gains.take k).sum) := hlt
          _ = cum + g + (gains.take k).sum := by ring
      obtain ⟨j2, hj2, h1j2, hres, hlt2, hmax2⟩ :=
        ih max_cum max_i (cum + g) (i + 1) hbr hex2
      refine ⟨j2 + 1, by simpa using Nat.succ_le_succ hj2, Nat.le_add_left 1 j2,
        ?_, ?_, ?_⟩
      · rw [hres]; omega
      · rw [List.take_succ_cons, List.sum_cons]
        calc max_cum < cum + g + (gains.take j2).sum := hlt2
          _ = cum + (g + (gains.take j2).sum) := by ring
      · intro j' hj'
        match j' with
        | 0 =>
          simp only [List.take_zero, List.sum_nil, add_zero, List.take_succ_cons,
            List.sum_cons]
          calc cum ≤ max_cum := hc
            _ ≤ cum + (g + (gains.take j2).sum) := le_of_lt (by
              calc max_cum < cum + g + (gains.take j2).sum := hlt2
                _ = cum + (g + (gains.take j2).sum) := by ring)
        | k' + 1 =>
          rw [List.take_succ_cons, List.sum_cons, List.take_succ_cons, List.sum_cons]
          have hk' : k' ≤ gains.length := by simpa using Nat.succ_le_succ_iff.mp hj'
          have := hmax2 k' hk'
          linarith

/-- Moves and gains are recorded in lockstep. -/
theorem optLoop_lengths (pick : List ℕ → List ℕ → Option (ℕ × ℕ × Option ℕ × ℤ)) :
    ∀ (fuel : ℕ) (mapping unmoved : List ℕ) (mvs : List MoveRec) (gs : List ℤ),
      optLoop pick fuel mapping unmoved = some (mvs, gs) → mvs.length = gs.length := by
  intro fuel
  induction fuel with
  | zero =>
    intro mapping unmoved mvs gs h
    rw [optLoop] at h
    split at h
    · cases h; rfl
    · cases h
  | succ n ih =>
    intro mapping unmoved mvs gs h
    rw [optLoop] at h
    split at h
    · cases h; rfl
    · split at h
      · cases h; rfl
      · split at h
        · split at h <;>
            [skip; skip] <;>
            (dsimp only at h
             split at h
             · cases h
               simp only [List.length_cons]
               rw [ih _ _ _ _ (by assumption)]
             · cases h)
        · cases h

/-! ## Claim C2: prefix commitment in `optimize_mapping` -/

/-- C2: for every possible move selection (the `pick` oracle absorbs the
gain caches, set order and randomness), one pass of `optimize_mapping`
records the chosen moves and gains in order and returns the input mapping
with exactly the first `max_i` recorded moves applied, where `max_i` is the
(first) index with maximum positive cumulative gain over the recorded gain
sequence; when no prefix has positive cumulative gain the input mapping is
returned unchanged. -/
theorem optimize_mapping_commit (pick : List ℕ → List ℕ → Option (ℕ × ℕ × Option ℕ × ℤ))
    (n : ℕ) (initial : List ℕ) (mvs : List MoveRec) (gs : List ℤ)
    (h : optLoop pick n initial (List.range n) = some (mvs, gs)) :
    mvs.length = gs.length ∧
    maxPrefixIndex gs ≤ gs.length ∧
    optimize_mapping pick n initial =
      some (if 0 < maxPrefixIndex gs then
        List.foldl applyRecMove initial (mvs.take (maxPrefixIndex gs))
      else initial) ∧
    ((∀ j ≤ gs.length, (gs.take j).sum ≤ 0) →
      optimize_mapping pick n initial = some initial) ∧
    ((∃ j, j ≤ gs.length ∧ 0 < (gs.take j).sum) →
      0 < maxPrefixIndex gs ∧
      0 < (gs.take (maxPrefixIndex gs)).sum ∧
      (∀ j ≤ gs.length, (gs.take j).sum ≤ (gs.take (maxPrefixIndex gs)).sum) ∧
      optimize_mapping pick n initial =
        some (List.foldl applyRecMove initial (mvs.take (maxPrefixIndex gs)))) := by
  have heq : optimize_mapping pick n initial =
      some (if 0 < maxPrefixIndex gs then
        List.foldl applyRecMove initial (mvs.take (maxPrefixIndex gs))
      else initial) := by
    unfold optimize_mapping
    rw [h]
    dsimp only
    by_cases h0 : 0 < maxPrefixIndex gs
    · rw [if_pos h0, if_pos h0]
    · rw [if_neg h0, if_neg h0]
  refine ⟨optLoop_lengths pick n initial (List.range n) mvs gs h, ?_, heq, ?_, ?_⟩
  · by_cases hex : ∃ j, j ≤ gs.length ∧ (0:ℤ) < (gs.take j).sum
    · obtain ⟨j, hj, _, hres, _, _⟩ := maxPrefixAux_best gs 0 0 0 0 le_rfl
        (by obtain ⟨j, hj, hs⟩ := hex; exact ⟨j, hj, by simpa using hs⟩)
      rw [maxPrefixIndex, hres]
      simpa using hj
    · push_neg at hex
      have hres := maxPrefixAux_stay gs 0 0 0 0 le_rfl
        (fun j hj => by simpa using hex j hj)
      rw [maxPrefixIndex, hres]
      exact Nat.zero_le _
  · intro hall
    have hres := maxPrefixAux_stay gs 0 0 0 0 le_rfl
      (fun j hj => by simpa using hall j hj)
    rw [heq, maxPrefixIndex, hres]
    simp
  · intro hex
    obtain ⟨j, hj, h1j, hres, hlt, hmax⟩ := maxPrefixAux_best gs 0 0 0 0 le_rfl
      (by obtain ⟨j, hj, hs⟩ := hex; exact ⟨j, hj, by simpa using hs⟩)
    rw [maxPrefixIndex, hres]
    simp only [Nat.zero_add]
    have hj0 : 0 < j := h1j
    refine ⟨hj0, by simpa using hlt, fun j' hj' => by simpa using hmax j' hj', ?_⟩
    rw [heq, maxPrefixIndex, hres]
    simp only [Nat.zero_add, if_pos hj0]

/-- Witness for C2 with a concrete oracle that moves qubit 0 to physical
qubit 5 with gain 1 and then stops: the recorded move is committed
(cumulative gain 1 > 0) and the pass returns `[5,1]`. -/
theorem optimize_mapping_commit_witness :
    optLoop (fun _ u => if u.length = 2 then some (0, 5, none, 1) else none)
        2 [0,1] (List.range 2) = some ([⟨0,0,5,none⟩], [1]) ∧
    optimize_mapping (fun _ u => if u.length = 2 then some (0, 5, none, 1) else none)
        2 [0,1] = some [5,1] ∧
    0 < (([1] : List ℤ).take 1).sum := by
  have h := optimize_mapping_commit
    (fun _ u => if u.length = 2 then some (0, 5, none, 1) else none)
    2 [0,1] [⟨0,0,5,none⟩] [1] (by decide)
  exact ⟨by decide, h.2.2.1.trans (by decide), by decide⟩

end DqcMap
